import Mathlib

/-!
Verification of the NaiveRag retrieval-and-extraction pipeline.

Strings from the Python source are modelled as `List Char`; Python's
whitespace split, strip, lower and the concrete regular expressions of
`answer_generator.py` are embedded as executable functions.  Floating
point scores are modelled as rationals (only order comparisons occur in
the verified paths), and the external embedding function and FAISS
vector index are parameters of the operations that call them.
-/

namespace NaiveRag

/-- Python's str.split() with no argument: split on runs of whitespace,
producing no empty tokens. -/
def pySplit : List Char → List (List Char)
  | [] => []
  | [c] => if c.isWhitespace then [] else [[c]]
  | c :: d :: rest =>
    if c.isWhitespace then pySplit (d :: rest)
    else if d.isWhitespace then [c] :: pySplit (d :: rest)
    else
      match pySplit (d :: rest) with
      | w :: ws => (c :: w) :: ws
      | [] => [[c]]

/-- Python's str.strip(): drop whitespace from both ends. -/
def pyStrip (s : List Char) : List Char :=
  ((s.dropWhile Char.isWhitespace).reverse.dropWhile Char.isWhitespace).reverse

/-- Python's str.lower(), for the ASCII texts the program manipulates. -/
def pyLower (s : List Char) : List Char := s.map Char.toLower

/-- " ".join(words) from `sliding_window_chunk`. -/
def joinWords : List (List Char) → List Char
  | [] => []
  | [w] => w
  | w :: ws => w ++ ' ' :: joinWords ws

/-- The minimum word count below which `sliding_window_chunk` rejects a
window: max(30, chunk_size_words // 4). -/
def floorLen (chunkSize : Nat) : Nat := max 30 (chunkSize / 4)

/-- The loop of `sliding_window_chunk` (naive_rag.py lines 39-46), from a
given start offset: take words[start : start+chunk_size], stop before
appending when the window is below the floor, stop after appending when
the window reaches the end of the document, otherwise advance by
step = max(1, chunk_size - overlap). -/
def swcFrom (words : List (List Char)) (chunkSize overlap : Nat) (start : Nat) :
    List (List Char) :=
  if _h : start < words.length then
    let cw := (words.drop start).take chunkSize
    if cw.length < floorLen chunkSize then []
    else if words.length ≤ start + chunkSize then [joinWords cw]
    else joinWords cw :: swcFrom words chunkSize overlap (start + max 1 (chunkSize - overlap))
  else []
termination_by words.length - start
decreasing_by
  have h1 : 1 ≤ max 1 (chunkSize - overlap) := Nat.le_max_left 1 _
  omega

/-- sliding_window_chunk (naive_rag.py lines 33-47). -/
def sliding_window_chunk (text : List Char) (chunkSize overlap : Nat) :
    List (List Char) :=
  let words := pySplit text
  if words.isEmpty then [] else swcFrom words chunkSize overlap 0

/-- pySplit drops a leading whitespace character. -/
lemma pySplit_ws_cons (c : Char) (hc : c.isWhitespace = true) (l : List Char) :
    pySplit (c :: l) = pySplit l := by
  match l with
  | [] => simp [pySplit, hc]
  | d :: t => rw [pySplit, if_pos hc]

/-- Tokens of Python's whitespace split are nonempty and whitespace free. -/
lemma pySplit_sound :
    ∀ text : List Char, ∀ w ∈ pySplit text, w ≠ [] ∧ ∀ c ∈ w, c.isWhitespace = false := by
  have key : ∀ n, ∀ text : List Char, text.length ≤ n →
      ∀ w ∈ pySplit text, w ≠ [] ∧ ∀ c ∈ w, c.isWhitespace = false := by
    intro n
    induction n with
    | zero =>
      intro text hlen w hw
      have : text = [] := List.length_eq_zero.mp (by omega)
      subst this
      simp [pySplit] at hw
    | succ m ih =>
      intro text hlen w hw
      match text with
      | [] => simp [pySplit] at hw
      | [c] =>
        rw [pySplit] at hw
        by_cases hc : c.isWhitespace
        · simp [hc] at hw
        · simp [hc] at hw
          subst hw
          exact ⟨by simp, by intro x hx; simp at hx; subst hx; simpa using hc⟩
      | c :: d :: r2 =>
        have hlen2 : (d :: r2).length ≤ m := by simp at hlen ⊢; omega
        rw [pySplit] at hw
        by_cases hc : c.isWhitespace
        · rw [if_pos hc] at hw
          exact ih _ hlen2 w hw
        · rw [if_neg hc] at hw
          by_cases hd : d.isWhitespace
          · rw [if_pos hd] at hw
            rcases List.mem_cons.mp hw with h1 | h2
            · subst h1
              exact ⟨by simp, by intro x hx; simp at hx; subst hx; simpa using hc⟩
            · exact ih _ hlen2 w h2
          · rw [if_neg hd] at hw
            rcases hsp : pySplit (d :: r2) with _ | ⟨w1, ws1⟩
            · rw [hsp] at hw
              simp at hw
              subst hw
              exact ⟨by simp, by intro x hx; simp at hx; subst hx; simpa using hc⟩
            · rw [hsp] at hw
              rcases List.mem_cons.mp hw with h1 | h2
              · subst h1
                have hw1 := ih _ hlen2 w1 (by rw [hsp]; simp)
                refine ⟨by simp, ?_⟩
                intro x hx
                rcases List.mem_cons.mp hx with rfl | hx2
                · simpa using hc
                · exact hw1.2 x hx2
              · exact ih _ hlen2 w (by rw [hsp]; simp [h2])
  intro text
  exact key text.length text le_rfl

/-- Splitting a nonempty whitespace-free token followed by nothing or by a
whitespace-headed remainder yields the token then the split of the rest. -/
lemma pySplit_run :
    ∀ u : List Char, u ≠ [] → (∀ c ∈ u, c.isWhitespace = false) →
      ∀ v : List Char, (v = [] ∨ ∃ d t, v = d :: t ∧ d.isWhitespace = true) →
      pySplit (u ++ v) = u :: pySplit v := by
  intro u
  induction u with
  | nil => intro h; exact absurd rfl h
  | cons x u2 ih =>
    intro _ hall v hv
    have hx : x.isWhitespace = false := hall x (by simp)
    match u2, ih with
    | [], _ =>
      rcases hv with rfl | ⟨d, t, rfl, hd⟩
      · simp [pySplit, hx]
      · rw [List.cons_append, List.nil_append, pySplit, if_neg (by simp [hx]),
          if_pos hd]
    | y :: u3, ih =>
      have hy : y.isWhitespace = false := hall y (by simp)
      have htail : pySplit (y :: (u3 ++ v)) = (y :: u3) :: pySplit v := by
        have := ih (by simp) (fun c hc => hall c (by simp [hc])) v hv
        simpa using this
      simp only [List.cons_append]
      rw [pySplit, if_neg (by simp [hx]), if_neg (by simp [hy]), htail]

/-- Joining whitespace-free nonempty tokens with single spaces and
re-splitting recovers the tokens. -/
lemma pySplit_join :
    ∀ ws : List (List Char),
      (∀ w ∈ ws, w ≠ [] ∧ ∀ c ∈ w, c.isWhitespace = false) →
      pySplit (joinWords ws) = ws := by
  intro ws
  induction ws with
  | nil => intro _; simp [joinWords, pySplit]
  | cons w t ih =>
    intro h
    have hw := h w (by simp)
    match t with
    | [] =>
      have : joinWords [w] = w ++ [] := by rw [joinWords]; simp
      rw [this, pySplit_run w hw.1 hw.2 [] (Or.inl rfl)]
      simp [pySplit]
    | w2 :: t2 =>
      have hjoin : joinWords (w :: w2 :: t2) = w ++ ' ' :: joinWords (w2 :: t2) := by
        rw [joinWords] <;> simp
      rw [hjoin, pySplit_run w hw.1 hw.2 _ (Or.inr ⟨' ', _, rfl, by decide⟩)]
      rw [pySplit_ws_cons ' ' (by decide), ih (fun x hx => h x (by simp [hx]))]

/-- Full characterisation of the chunking loop from an arbitrary start
offset, for configurations with 0 ≤ overlap < chunkSize: the emitted
chunks are the windows at offsets start, start+step, ..., every emitted
window is at or above the floor, no window before the last reaches the
end, and the loop stops either because the next candidate window is
below the floor or because the last emitted window reached the end. -/
lemma swcFrom_spec (words : List (List Char)) (cs ow : Nat)
    (hcs : 0 < cs) (how : ow < cs) :
    ∀ start,
      (∀ i (h : i < (swcFrom words cs ow start).length),
        (swcFrom words cs ow start).get ⟨i, h⟩ =
          joinWords ((words.drop (start + i * (cs - ow))).take cs))
      ∧ (∀ i, i < (swcFrom words cs ow start).length →
          floorLen cs ≤ ((words.drop (start + i * (cs - ow))).take cs).length)
      ∧ (∀ i, i + 1 < (swcFrom words cs ow start).length →
          start + i * (cs - ow) + cs < words.length)
      ∧ (start < words.length →
          ((words.drop (start + (swcFrom words cs ow start).length * (cs - ow))).take cs).length
              < floorLen cs
          ∨ (0 < (swcFrom words cs ow start).length
             ∧ words.length ≤
                 start + ((swcFrom words cs ow start).length - 1) * (cs - ow) + cs))
      ∧ (words.length ≤ start → swcFrom words cs ow start = []) := by
  have hstep1 : 1 ≤ cs - ow := by omega
  have hstepmax : max 1 (cs - ow) = cs - ow := Nat.max_eq_right hstep1
  have key : ∀ fuel start, words.length - start ≤ fuel →
      (∀ i (h : i < (swcFrom words cs ow start).length),
        (swcFrom words cs ow start).get ⟨i, h⟩ =
          joinWords ((words.drop (start + i * (cs - ow))).take cs))
      ∧ (∀ i, i < (swcFrom words cs ow start).length →
          floorLen cs ≤ ((words.drop (start + i * (cs - ow))).take cs).length)
      ∧ (∀ i, i + 1 < (swcFrom words cs ow start).length →
          start + i * (cs - ow) + cs < words.length)
      ∧ (start < words.length →
          ((words.drop (start + (swcFrom words cs ow start).length * (cs - ow))).take cs).length
              < floorLen cs
          ∨ (0 < (swcFrom words cs ow start).length
             ∧ words.length ≤
                 start + ((swcFrom words cs ow start).length - 1) * (cs - ow) + cs))
      ∧ (words.length ≤ start → swcFrom words cs ow start = []) := by
    intro fuel
    induction fuel with
    | zero =>
      intro start hle
      have hge : words.length ≤ start := by omega
      have hnil : swcFrom words cs ow start = [] := by
        rw [swcFrom, dif_neg (by omega)]
      refine ⟨?_, ?_, ?_, ?_, fun _ => hnil⟩ <;> simp [hnil] <;> omega
    | succ m ih =>
      intro start hle
      by_cases hs : start < words.length
      case neg =>
        have hnil : swcFrom words cs ow start = [] := by
          rw [swcFrom, dif_neg hs]
        refine ⟨?_, ?_, ?_, ?_, fun _ => hnil⟩ <;> simp [hnil] <;> omega
      case pos =>
        by_cases hfl : ((words.drop start).take cs).length < floorLen cs
        case pos =>
          have hnil : swcFrom words cs ow start = [] := by
            rw [swcFrom, dif_pos hs, if_pos hfl]
          refine ⟨?_, ?_, ?_, ?_, fun h => by omega⟩
          · simp [hnil]
          · simp [hnil]
          · simp [hnil]
          · intro _
            left
            simpa [hnil] using hfl
        case neg =>
          by_cases hend : words.length ≤ start + cs
          case pos =>
            have hone : swcFrom words cs ow start = [joinWords ((words.drop start).take cs)] := by
              rw [swcFrom, dif_pos hs, if_neg hfl, if_pos hend]
            refine ⟨?_, ?_, ?_, ?_, fun h => by omega⟩
            · intro i h
              have hi : i = 0 := by simp [hone] at h; omega
              subst hi
              simp [hone]
            · intro i h
              have hi : i = 0 := by simp [hone] at h; omega
              subst hi
              simpa using (by omega : ¬ ((words.drop start).take cs).length < floorLen cs)
            · intro i h
              simp [hone] at h
            · intro _
              right
              simp [hone]
              omega
          case neg =>
            have hcons : swcFrom words cs ow start =
                joinWords ((words.drop start).take cs) ::
                  swcFrom words cs ow (start + (cs - ow)) := by
              rw [swcFrom, dif_pos hs, if_neg hfl, if_neg hend, hstepmax]
            have hnext : words.length - (start + (cs - ow)) ≤ m := by omega
            obtain ⟨ihA, ihB, ihC, ihD, ihE⟩ := ih (start + (cs - ow)) hnext
            have hshift : ∀ j : Nat, start + (cs - ow) + j * (cs - ow) =
                start + (j + 1) * (cs - ow) := by
              intro j
              rw [Nat.succ_mul]
              omega
            refine ⟨?_, ?_, ?_, ?_, fun h => by omega⟩
            · intro i h
              match i with
              | 0 => simp [hcons]
              | j + 1 =>
                have hj : j < (swcFrom words cs ow (start + (cs - ow))).length := by
                  simp [hcons] at h; omega
                have := ihA j hj
                rw [hshift j] at this
                simpa [hcons] using this
            · intro i h
              match i with
              | 0 =>
                simpa using (by omega : ¬ ((words.drop start).take cs).length < floorLen cs)
              | j + 1 =>
                have hj : j < (swcFrom words cs ow (start + (cs - ow))).length := by
                  simp [hcons] at h; omega
                have := ihB j hj
                rwa [hshift j] at this
            · intro i h
              match i with
              | 0 => simpa using (by omega : start + 0 * (cs - ow) + cs < words.length)
              | j + 1 =>
                have hj : j + 1 < (swcFrom words cs ow (start + (cs - ow))).length := by
                  simp [hcons] at h; omega
                have := ihC j hj
                rwa [hshift j] at this
            · intro _
              have hs2 : start + (cs - ow) < words.length := by omega
              rcases ihD hs2 with hlow | ⟨hpos, hreach⟩
              · left
                have hlen : (swcFrom words cs ow start).length =
                    (swcFrom words cs ow (start + (cs - ow))).length + 1 := by
                  simp [hcons]
                rw [hlen]
                rw [show start + ((swcFrom words cs ow (start + (cs - ow))).length + 1) * (cs - ow)
                    = start + (cs - ow) +
                      (swcFrom words cs ow (start + (cs - ow))).length * (cs - ow) by
                  rw [Nat.succ_mul]; omega]
                exact hlow
              · right
                have hlen : (swcFrom words cs ow start).length =
                    (swcFrom words cs ow (start + (cs - ow))).length + 1 := by
                  simp [hcons]
                constructor
                · omega
                · rw [hlen]
                  obtain ⟨k, hk⟩ : ∃ k, (swcFrom words cs ow (start + (cs - ow))).length = k + 1 :=
                    ⟨_, (Nat.succ_pred_eq_of_pos hpos).symm⟩
                  rw [hk] at hreach ⊢
                  simp only [Nat.add_sub_cancel] at hreach ⊢
                  rw [Nat.succ_mul]
                  omega
  intro start
  exact key (words.length - start) start le_rfl

/-- C3: chunker window discipline.  For chunkSize > 0 and
0 ≤ overlap < chunkSize, sliding_window_chunk returns the empty
sequence when the text has no whitespace-separated words; otherwise
chunk i is exactly the word window starting at offset i * step with
step = chunkSize - overlap (so start offsets increase by exactly step),
every emitted chunk holds between max(30, chunkSize / 4) and chunkSize
words, no window before the last reaches the end of the document, and
the scan stops at the first candidate window below the floor or at the
first window reaching the end. -/
theorem chunker_window_discipline (text : List Char) (cs ow : Nat)
    (hcs : 0 < cs) (how : ow < cs) :
    (pySplit text = [] → sliding_window_chunk text cs ow = [])
    ∧ (∀ i (h : i < (sliding_window_chunk text cs ow).length),
        (sliding_window_chunk text cs ow).get ⟨i, h⟩ =
          joinWords (((pySplit text).drop (i * (cs - ow))).take cs)
        ∧ pySplit ((sliding_window_chunk text cs ow).get ⟨i, h⟩) =
          ((pySplit text).drop (i * (cs - ow))).take cs)
    ∧ (∀ i, i < (sliding_window_chunk text cs ow).length →
        floorLen cs ≤ (((pySplit text).drop (i * (cs - ow))).take cs).length
        ∧ (((pySplit text).drop (i * (cs - ow))).take cs).length ≤ cs)
    ∧ (∀ i, i + 1 < (sliding_window_chunk text cs ow).length →
        i * (cs - ow) + cs < (pySplit text).length)
    ∧ (pySplit text ≠ [] →
        (((pySplit text).drop
            ((sliding_window_chunk text cs ow).length * (cs - ow))).take cs).length
          < floorLen cs
        ∨ (0 < (sliding_window_chunk text cs ow).length
           ∧ (pySplit text).length ≤
               ((sliding_window_chunk text cs ow).length - 1) * (cs - ow) + cs)) := by
  by_cases hW : pySplit text = []
  · have hch : sliding_window_chunk text cs ow = [] := by
      simp [sliding_window_chunk, hW]
    refine ⟨fun _ => hch, ?_, ?_, ?_, fun hne => absurd hW hne⟩
    · intro i h; rw [hch] at h; simp at h
    · intro i h; rw [hch] at h; simp at h
    · intro i h; rw [hch] at h; simp at h
  · have hch : sliding_window_chunk text cs ow = swcFrom (pySplit text) cs ow 0 := by
      simp [sliding_window_chunk, hW]
    obtain ⟨A, B, Cc, D, _E⟩ := swcFrom_spec (pySplit text) cs ow hcs how 0
    simp only [Nat.zero_add] at A B Cc D
    refine ⟨fun h => absurd h hW, ?_, ?_, ?_, ?_⟩
    · intro i h
      have h2 : i < (swcFrom (pySplit text) cs ow 0).length := by rw [← hch]; exact h
      have hget : (sliding_window_chunk text cs ow).get ⟨i, h⟩ =
          (swcFrom (pySplit text) cs ow 0).get ⟨i, h2⟩ := by
        congr 1
        · exact (Fin.heq_ext_iff (by rw [hch])).mpr rfl
      have hval := A i h2
      refine ⟨hget.trans hval, ?_⟩
      rw [hget, hval]
      apply pySplit_join
      intro w hw
      have hw2 : w ∈ pySplit text :=
        (List.drop_sublist _ _).subset ((List.take_sublist _ _).subset hw)
      exact pySplit_sound text w hw2
    · intro i h
      have h2 : i < (swcFrom (pySplit text) cs ow 0).length := by rw [← hch]; exact h
      refine ⟨B i h2, ?_⟩
      have := List.length_take cs ((pySplit text).drop (i * (cs - ow)))
      omega
    · intro i h
      have h2 : i + 1 < (swcFrom (pySplit text) cs ow 0).length := by rw [← hch]; exact h
      exact Cc i h2
    · intro _
      have hpos : 0 < (pySplit text).length := List.length_pos.mpr hW
      rw [hch]
      exact D hpos

/-- Witness text for the C3 theorem: "hello world". -/
def c3Text : List Char :=
  ('h' :: 'e' :: 'l' :: 'l' :: 'o' :: ' ' :: 'w' :: 'o' :: 'r' :: 'l' :: 'd' :: [])

/-- Witness for C3: the window-discipline theorem applied at the concrete
text "hello world" with chunk_size_words = 30 and overlap_words = 10. -/
theorem chunker_window_discipline_witness :
    0 < 30 ∧ 10 < 30
    ∧ ((pySplit c3Text = [] → sliding_window_chunk c3Text 30 10 = [])
       ∧ (∀ i (h : i < (sliding_window_chunk c3Text 30 10).length),
           (sliding_window_chunk c3Text 30 10).get ⟨i, h⟩ =
             joinWords (((pySplit c3Text).drop (i * (30 - 10))).take 30)
           ∧ pySplit ((sliding_window_chunk c3Text 30 10).get ⟨i, h⟩) =
             ((pySplit c3Text).drop (i * (30 - 10))).take 30)
       ∧ (∀ i, i < (sliding_window_chunk c3Text 30 10).length →
           floorLen 30 ≤ (((pySplit c3Text).drop (i * (30 - 10))).take 30).length
           ∧ (((pySplit c3Text).drop (i * (30 - 10))).take 30).length ≤ 30)
       ∧ (∀ i, i + 1 < (sliding_window_chunk c3Text 30 10).length →
           i * (30 - 10) + 30 < (pySplit c3Text).length)
       ∧ (pySplit c3Text ≠ [] →
           (((pySplit c3Text).drop
               ((sliding_window_chunk c3Text 30 10).length * (30 - 10))).take 30).length
             < floorLen 30
           ∨ (0 < (sliding_window_chunk c3Text 30 10).length
              ∧ (pySplit c3Text).length ≤
                  ((sliding_window_chunk c3Text 30 10).length - 1) * (30 - 10) + 30))) :=
  ⟨by decide, by decide, chunker_window_discipline c3Text 30 10 (by decide) (by decide)⟩

/-- A retrieval unit (naive_rag.py lines 14-18). -/
structure Chunk where
  doc_id : String
  chunk_id : Nat
  text : List Char
deriving DecidableEq, Repr

/-- The mutable state of a NaiveRAG object: self.chunks, self.index
(the vectors held by the FAISS flat index, or None before a build) and
self.dim.  Embedding vectors are modelled as lists of rationals. -/
structure RagState where
  chunks : List Chunk
  index : Option (List (List ℚ))
  dim : Option Nat
deriving DecidableEq, Repr

/-- Errors build_index can raise: the ValueError for an empty chunk list,
or an error propagated from the embedding step. -/
inductive BuildErr where
  | config : BuildErr
  | embed : BuildErr
deriving DecidableEq, Repr

/-- NaiveRAG.build_index (naive_rag.py lines 57-75).  The embedding model
is a parameter; `none` models `self.embedder.encode` raising.  The result
pairs the final state with the raised error, if any: Python leaves all
assignments made before the raise in place, so the state after a failed
embedding call keeps the freshly assigned `chunks` alongside the old
`index` and `dim`. -/
def build_index (encode : List (List Char) → Option (List (List ℚ)))
    (st : RagState) (docs : List (String × List Char)) (cs ow : Nat) :
    RagState × Option BuildErr :=
  let all_chunks := docs.flatMap fun d =>
    ((sliding_window_chunk d.2 cs ow).enum).map fun p =>
      Chunk.mk d.1 p.1 p.2
  if all_chunks = [] then (st, some BuildErr.config)
  else
    let st1 : RagState := { st with chunks := all_chunks }
    match encode (st1.chunks.map Chunk.text) with
    | none => (st1, some BuildErr.embed)
    | some embs =>
      ({ chunks := all_chunks, index := some embs,
         dim := some (embs.headD []).length }, none)

/-- With chunk_size_words below 30, every candidate window is below the
floor max(30, chunk_size_words // 4) = 30, so chunking yields nothing. -/
lemma sliding_window_chunk_small (text : List Char) (cs ow : Nat) (h2 : cs < 30) :
    sliding_window_chunk text cs ow = [] := by
  rw [sliding_window_chunk]
  by_cases hW : (pySplit text).isEmpty
  · simp [hW]
  · rw [if_neg hW, swcFrom]
    have hlen : 0 < (pySplit text).length := by
      simp only [List.isEmpty_iff] at hW
      exact List.length_pos.mpr hW
    have hfloor : 30 ≤ floorLen cs := Nat.le_max_left _ _
    have htake : (((pySplit text).drop 0).take cs).length ≤ cs :=
      List.length_take_le _ _
    rw [dif_pos hlen]
    simp only []
    rw [if_pos (by omega)]

/-- C10: with 0 < chunk_size_words < 30 the floor max(30, size // 4) is 30
and every candidate window holds at most chunk_size_words < 30 words, so
sliding_window_chunk rejects the first window and returns the empty list
for every text, and build_index raises its configuration error for every
corpus and every overlap under such a configuration, leaving the state
unchanged. -/
theorem small_chunk_size_config_error (text : List Char) (cs ow : Nat)
    (h1 : 0 < cs) (h2 : cs < 30)
    (encode : List (List Char) → Option (List (List ℚ)))
    (st : RagState) (docs : List (String × List Char)) :
    sliding_window_chunk text cs ow = []
    ∧ build_index encode st docs cs ow = (st, some BuildErr.config) := by
  refine ⟨sliding_window_chunk_small text cs ow h2, ?_⟩
  have hall : (docs.flatMap fun d =>
      ((sliding_window_chunk d.2 cs ow).enum).map fun p =>
        Chunk.mk d.1 p.1 p.2) = [] := by
    induction docs with
    | nil => simp
    | cons d t ih => simp [sliding_window_chunk_small d.2 cs ow h2, ih]
  rw [build_index]
  simp only [hall]
  simp

/-- Witness input for the C10 theorem: a two-word text and a width-10
configuration. -/
def c10Text : List Char := ('h' :: 'e' :: 'l' :: 'l' :: 'o' :: ' ' :: 'w' :: 'o' :: 'r' :: 'l' :: 'd' :: [])

/-- An initial NaiveRAG state with no index built. -/
def st0 : RagState := ⟨[], none, none⟩

/-- Witness for C10: the theorem applied at a concrete text, configuration
chunk_size_words = 10, overlap_words = 3, and a concrete corpus. -/
theorem small_chunk_size_config_error_witness :
    0 < 10 ∧ 10 < 30
    ∧ (sliding_window_chunk c10Text 10 3 = []
       ∧ build_index (fun _ => none) st0 [("d", c10Text)] 10 3
           = (st0, some BuildErr.config)) :=
  ⟨by decide, by decide,
    small_chunk_size_config_error c10Text 10 3 (by decide) (by decide)
      (fun _ => none) st0 [("d", c10Text)]⟩

/-- The 30-word document used for the C1 failing input. -/
def c1Text : List Char := joinWords (List.replicate 30 ['a'])

/-- A state holding a previously built index: one chunk, one stored
vector, dimension 1. -/
def c1Prev : RagState := ⟨[Chunk.mk "old" 0 ['o']], some [[(1 : ℚ)]], some 1⟩

lemma c1_chunk_eval : sliding_window_chunk c1Text 30 0 = [c1Text] := by
  have hws : pySplit c1Text = List.replicate 30 ['a'] := by
    apply pySplit_join
    intro w hw
    have hwa := List.eq_of_mem_replicate hw
    subst hwa
    exact ⟨by simp, by decide⟩
  rw [sliding_window_chunk]
  simp only [hws]
  rw [if_neg (by simp), swcFrom, dif_pos (by simp)]
  simp only [List.drop_zero, List.take_replicate, List.length_replicate]
  rw [if_neg (by simp [floorLen]), if_pos (by simp)]
  simp [c1Text]

/-- C1: the claimed failure atomicity of build_index does not hold.  The
code assigns self.chunks before calling the embedder, so when embedding
raises after a successful chunking pass, the state keeps the new chunk
list while self.index and self.dim still hold the previous index: a
partial overwrite.  Evaluated here at a concrete failing input: a state
with a previously built index, a 30-word corpus, and an embedder that
raises. -/
theorem build_index_partial_overwrite :
    (build_index (fun _ => none) c1Prev [("doc", c1Text)] 30 0).2 = some BuildErr.embed
    ∧ (build_index (fun _ => none) c1Prev [("doc", c1Text)] 30 0).1.chunks ≠ c1Prev.chunks
    ∧ (build_index (fun _ => none) c1Prev [("doc", c1Text)] 30 0).1.index = c1Prev.index
    ∧ (build_index (fun _ => none) c1Prev [("doc", c1Text)] 30 0).1.dim = c1Prev.dim := by
  have hb : build_index (fun _ => none) c1Prev [("doc", c1Text)] 30 0 =
      ({ chunks := [Chunk.mk "doc" 0 c1Text],
         index := c1Prev.index, dim := c1Prev.dim }, some BuildErr.embed) := by
    rw [build_index]
    simp only [c1_chunk_eval, List.flatMap_cons, List.flatMap_nil, List.enum,
      List.append_nil]
    rw [if_neg (by simp)]
    simp [List.enumFrom]
  rw [hb]
  exact ⟨rfl, by decide, rfl, rfl⟩

/-- Errors retrieve can raise: the RuntimeError for a missing index, and
an IndexError from indexing self.chunks with an out-of-range id. -/
inductive RagErr where
  | stateErr : RagErr
  | indexErr : RagErr
deriving DecidableEq, Repr

/-- Python list indexing with an integer index: nonnegative indexes read
from the front, negative indexes read from the back, out of range is an
error. -/
def pyGet {α : Type} (l : List α) (i : Int) : Option α :=
  if 0 ≤ i then l.get? i.toNat
  else if (-i).toNat ≤ l.length then l.get? (l.length - (-i).toNat) else none

/-- The result loop of NaiveRAG.retrieve (naive_rag.py lines 85-89):
sentinel id -1 slots are skipped, every other id indexes self.chunks;
`none` models the IndexError Python would raise on an out-of-range id. -/
def retrieveLoop (chunks : List Chunk) : List (Int × ℚ) → Option (List (Chunk × ℚ))
  | [] => some []
  | (i, sc) :: rest =>
    if i = -1 then retrieveLoop chunks rest
    else
      match pyGet chunks i with
      | none => none
      | some c =>
        match retrieveLoop chunks rest with
        | none => none
        | some res => some ((c, sc) :: res)

/-- NaiveRAG.retrieve (naive_rag.py lines 77-90).  The embedding model and
the FAISS index search are parameters; `search` receives the stored
vectors, the encoded query and top_k and returns the (id, score) slots
that `zip(ids[0], scores[0])` iterates. -/
def retrieve (search : List (List ℚ) → List ℚ → Nat → List (Int × ℚ))
    (encode : List Char → List ℚ)
    (st : RagState) (query : List Char) (top_k : Nat) :
    Except RagErr (List (Chunk × ℚ)) :=
  match st.index with
  | none => Except.error RagErr.stateErr
  | some vidx =>
    match retrieveLoop st.chunks (search vidx (encode query) top_k) with
    | some res => Except.ok res
    | none => Except.error RagErr.indexErr

lemma retrieveLoop_spec (chunks : List Chunk) :
    ∀ slots : List (Int × ℚ),
      (∀ p ∈ slots, p.1 = -1 ∨ (0 ≤ p.1 ∧ p.1.toNat < chunks.length)) →
      ∃ res, retrieveLoop chunks slots = some res
        ∧ res.length = (slots.filter (fun p => p.1 != -1)).length
        ∧ ∀ pr ∈ res, ∃ sl ∈ slots,
            sl.1 ≠ -1 ∧ pyGet chunks sl.1 = some pr.1 ∧ pr.2 = sl.2 := by
  intro slots
  induction slots with
  | nil =>
    intro _
    exact ⟨[], rfl, by simp, by simp⟩
  | cons p rest ih =>
    intro hvalid
    obtain ⟨res, hres, hlen, hmem⟩ := ih (fun q hq => hvalid q (by simp [hq]))
    match p with
    | (i, sc) =>
      by_cases hi : i = -1
      · subst hi
        refine ⟨res, ?_, ?_, ?_⟩
        · rw [retrieveLoop, if_pos rfl]
          exact hres
        · rw [hlen]
          simp [List.filter_cons]
        · intro pr hpr
          obtain ⟨sl, hsl, hprops⟩ := hmem pr hpr
          exact ⟨sl, by simp [hsl], hprops⟩
      · have hv := hvalid (i, sc) (by simp)
        rcases hv with h1 | ⟨h2, h3⟩
        · exact absurd h1 hi
        · have hget : pyGet chunks i = some (chunks.get ⟨i.toNat, h3⟩) := by
            rw [pyGet, if_pos h2]
            exact List.get?_eq_get h3
          refine ⟨(chunks.get ⟨i.toNat, h3⟩, sc) :: res, ?_, ?_, ?_⟩
          · rw [retrieveLoop, if_neg hi, hget, hres]
          · simp only [List.length_cons, hlen, List.filter_cons]
            have : ((i, sc).1 != -1) = true := by simpa using hi
            rw [this]
            simp
          · intro pr hpr
            rcases List.mem_cons.mp hpr with h1 | h2
            · subst h1
              exact ⟨(i, sc), by simp, hi, hget, rfl⟩
            · obtain ⟨sl, hsl, hprops⟩ := hmem pr h2
              exact ⟨sl, by simp [hsl], hprops⟩

lemma nodup_nat_bounded (l : List Nat) (n : Nat) (h : l.Nodup)
    (hb : ∀ x ∈ l, x < n) : l.length ≤ n := by
  classical
  have h1 : l.length = l.toFinset.card := (List.toFinset_card_of_nodup h).symm
  have h2 : l.toFinset ⊆ Finset.range n := by
    intro x hx
    exact Finset.mem_range.mpr (hb x (List.mem_toFinset.mp hx))
  calc l.length = l.toFinset.card := h1
    _ ≤ (Finset.range n).card := Finset.card_le_card h2
    _ = n := Finset.card_range n

/-- C6: with a built index, when the FAISS search returns at most top_k
slots whose non-sentinel ids are valid distinct chunk indexes (the
contract of the external vector index in §6 of the spec), retrieve
returns at most min(top_k, chunk count) pairs and every returned pair
comes from a non-sentinel slot. -/
theorem retrieve_length_and_sentinel
    (search : List (List ℚ) → List ℚ → Nat → List (Int × ℚ))
    (encode : List Char → List ℚ)
    (st : RagState) (query : List Char) (top_k : Nat) (vidx : List (List ℚ))
    (hbuilt : st.index = some vidx)
    (hlen : (search vidx (encode query) top_k).length ≤ top_k)
    (hvalid : ∀ p ∈ search vidx (encode query) top_k,
        p.1 = -1 ∨ (0 ≤ p.1 ∧ p.1.toNat < st.chunks.length))
    (hnodup : (((search vidx (encode query) top_k).map Prod.fst).filter
        (fun i => i != -1)).Nodup) :
    ∃ res, retrieve search encode st query top_k = Except.ok res
      ∧ res.length ≤ top_k
      ∧ res.length ≤ st.chunks.length
      ∧ ∀ pr ∈ res, ∃ sl ∈ search vidx (encode query) top_k,
          sl.1 ≠ -1 ∧ pyGet st.chunks sl.1 = some pr.1 ∧ pr.2 = sl.2 := by
  obtain ⟨res, hloop, hreslen, hmem⟩ :=
    retrieveLoop_spec st.chunks (search vidx (encode query) top_k) hvalid
  refine ⟨res, ?_, ?_, ?_, hmem⟩
  · rw [retrieve, hbuilt]
    simp only [hloop]
  · calc res.length
        = ((search vidx (encode query) top_k).filter (fun p => p.1 != -1)).length :=
          hreslen
      _ ≤ (search vidx (encode query) top_k).length := List.length_filter_le _ _
      _ ≤ top_k := hlen
  · set slots := search vidx (encode query) top_k with hslots
    have hcomm : (slots.map Prod.fst).filter (fun i => i != -1) =
        (slots.filter (fun p => p.1 != -1)).map Prod.fst := by
      rw [List.filter_map]
      rfl
    have hnodup2 : ((slots.filter (fun p => p.1 != -1)).map Prod.fst).Nodup := by
      rw [← hcomm]
      exact hnodup
    have hnats : (((slots.filter (fun p => p.1 != -1)).map Prod.fst).map Int.toNat).Nodup := by
      apply hnodup2.map_on
      intro x hx y hy hxy
      have hxmem : x ∈ slots.map Prod.fst := by
        obtain ⟨q, hq, rfl⟩ := List.mem_map.mp hx
        exact List.mem_map.mpr ⟨q, (List.mem_filter.mp hq).1, rfl⟩
      have hymem : y ∈ slots.map Prod.fst := by
        obtain ⟨q, hq, rfl⟩ := List.mem_map.mp hy
        exact List.mem_map.mpr ⟨q, (List.mem_filter.mp hq).1, rfl⟩
      have hxv : 0 ≤ x := by
        obtain ⟨q, hq, rfl⟩ := List.mem_map.mp hx
        have := hvalid q (List.mem_filter.mp hq).1
        rcases this with h1 | h2
        · exact absurd (by simpa using h1) (by simpa using (List.mem_filter.mp hq).2)
        · exact h2.1
      have hyv : 0 ≤ y := by
        obtain ⟨q, hq, rfl⟩ := List.mem_map.mp hy
        have := hvalid q (List.mem_filter.mp hq).1
        rcases this with h1 | h2
        · exact absurd (by simpa using h1) (by simpa using (List.mem_filter.mp hq).2)
        · exact h2.1
      omega
    have hbound : ∀ x ∈ ((slots.filter (fun p => p.1 != -1)).map Prod.fst).map Int.toNat,
        x < st.chunks.length := by
      intro x hx
      obtain ⟨y, hy, rfl⟩ := List.mem_map.mp hx
      obtain ⟨q, hq, rfl⟩ := List.mem_map.mp hy
      have := hvalid q (List.mem_filter.mp hq).1
      rcases this with h1 | h2
      · exact absurd (by simpa using h1) (by simpa using (List.mem_filter.mp hq).2)
      · exact h2.2
    have := nodup_nat_bounded _ st.chunks.length hnats hbound
    simp only [List.length_map] at this
    omega

/-- C7: retrieve raises the state error exactly when no index has been
built; with a built index whose search results satisfy the vector-index
contract it never raises, and an all-sentinel (no match) search result
yields the empty list rather than an error. -/
theorem retrieve_error_iff_no_index
    (search : List (List ℚ) → List ℚ → Nat → List (Int × ℚ))
    (encode : List Char → List ℚ)
    (st : RagState) (query : List Char) (top_k : Nat)
    (hvalid : ∀ vidx, st.index = some vidx →
        ∀ p ∈ search vidx (encode query) top_k,
          p.1 = -1 ∨ (0 ≤ p.1 ∧ p.1.toNat < st.chunks.length)) :
    (retrieve search encode st query top_k = Except.error RagErr.stateErr ↔ st.index = none)
    ∧ (st.index ≠ none → ∃ res, retrieve search encode st query top_k = Except.ok res)
    ∧ (∀ vidx, st.index = some vidx →
        (∀ p ∈ search vidx (encode query) top_k, p.1 = -1) →
        retrieve search encode st query top_k = Except.ok []) := by
  rcases hidx : st.index with _ | vidx
  case none =>
    have hret : retrieve search encode st query top_k = Except.error RagErr.stateErr := by
      rw [retrieve, hidx]
    refine ⟨by simp [hret], ?_, ?_⟩
    · intro hne
      exact absurd rfl hne
    · intro v hsome
      simp at hsome
  case some =>
    obtain ⟨res, hloop, hreslen, _⟩ :=
      retrieveLoop_spec st.chunks (search vidx (encode query) top_k)
        (hvalid vidx hidx)
    have hret : retrieve search encode st query top_k = Except.ok res := by
      rw [retrieve, hidx]
      simp only [hloop]
    refine ⟨?_, fun _ => ⟨res, hret⟩, ?_⟩
    · rw [hret]
      constructor
      · intro h
        exact absurd h (by simp)
      · intro h
        simp at h
    · intro v2 hsome hall
      have hv : vidx = v2 := by
        injection hsome
      subst hv
      have hfilter : ((search vidx (encode query) top_k).filter
          (fun p => p.1 != -1)) = [] := by
        rw [List.filter_eq_nil_iff]
        intro p hp
        simp [hall p hp]
      have hres0 : res = [] := by
        rw [hfilter] at hreslen
        simpa using List.length_eq_zero.mp (by simpa using hreslen)
      rw [hret, hres0]

/-- Concrete chunks for the retrieval witnesses. -/
def c6Chunks : List Chunk := [Chunk.mk "d" 0 ['x'], Chunk.mk "d" 1 ['y']]

/-- Concrete stored vectors for the retrieval witnesses. -/
def c6Vecs : List (List ℚ) := [[1], [0]]

/-- A state with a built two-chunk index for the retrieval witnesses. -/
def c6State : RagState := ⟨c6Chunks, some c6Vecs, some 1⟩

/-- A concrete vector-index search: one valid hit and one sentinel slot. -/
def c6Search : List (List ℚ) → List ℚ → Nat → List (Int × ℚ) :=
  fun _ _ _ => [((0 : Int), (1 : ℚ)), ((-1 : Int), (0 : ℚ))]

/-- A concrete embedding function for the retrieval witnesses. -/
def c6Encode : List Char → List ℚ := fun _ => [1]

/-- A concrete query for the retrieval witnesses. -/
def c6Query : List Char := ['q']

/-- Witness for C6: the retrieval-bound theorem applied at a concrete
two-chunk index and a search answer with one sentinel slot. -/
theorem retrieve_length_and_sentinel_witness :
    (c6State.index = some c6Vecs
     ∧ (c6Search c6Vecs (c6Encode c6Query) 2).length ≤ 2
     ∧ (∀ p ∈ c6Search c6Vecs (c6Encode c6Query) 2,
         p.1 = -1 ∨ (0 ≤ p.1 ∧ p.1.toNat < c6State.chunks.length))
     ∧ (((c6Search c6Vecs (c6Encode c6Query) 2).map Prod.fst).filter
         (fun i => i != -1)).Nodup)
    ∧ (∃ res, retrieve c6Search c6Encode c6State c6Query 2 = Except.ok res
        ∧ res.length ≤ 2
        ∧ res.length ≤ c6State.chunks.length
        ∧ ∀ pr ∈ res, ∃ sl ∈ c6Search c6Vecs (c6Encode c6Query) 2,
            sl.1 ≠ -1 ∧ pyGet c6State.chunks sl.1 = some pr.1 ∧ pr.2 = sl.2) :=
  ⟨⟨rfl, by decide, by decide, by decide⟩,
    retrieve_length_and_sentinel c6Search c6Encode c6State c6Query 2 c6Vecs rfl
      (by decide) (by decide) (by decide)⟩

/-- Witness for C7: the retrieve-error theorem applied at the concrete
built index of the C6 witness. -/
theorem retrieve_error_iff_no_index_witness :
    (∀ vidx, c6State.index = some vidx →
        ∀ p ∈ c6Search vidx (c6Encode c6Query) 2,
          p.1 = -1 ∨ (0 ≤ p.1 ∧ p.1.toNat < c6State.chunks.length))
    ∧ ((retrieve c6Search c6Encode c6State c6Query 2 = Except.error RagErr.stateErr
          ↔ c6State.index = none)
       ∧ (c6State.index ≠ none →
           ∃ res, retrieve c6Search c6Encode c6State c6Query 2 = Except.ok res)
       ∧ (∀ vidx, c6State.index = some vidx →
           (∀ p ∈ c6Search vidx (c6Encode c6Query) 2, p.1 = -1) →
           retrieve c6Search c6Encode c6State c6Query 2 = Except.ok [])) := by
  have hv : ∀ vidx, c6State.index = some vidx →
      ∀ p ∈ c6Search vidx (c6Encode c6Query) 2,
        p.1 = -1 ∨ (0 ≤ p.1 ∧ p.1.toNat < c6State.chunks.length) := by
    intro vidx hvx
    have hx : c6Vecs = vidx := by injection hvx
    subst hx
    decide
  exact ⟨hv, retrieve_error_iff_no_index c6Search c6Encode c6State c6Query 2 hv⟩

/-- detect_question_type (answer_generator.py lines 11-21): lower-case and
strip the question, then test str.startswith for who / which / when /
why in that order; anything else is a FACT question. -/
def detect_question_type (question : List Char) : String :=
  let q := pyStrip (pyLower question)
  if (['w','h','o'] : List Char).isPrefixOf q then "PERSON_OR_TEAM"
  else if (['w','h','i','c','h'] : List Char).isPrefixOf q then "ENTITY"
  else if (['w','h','e','n'] : List Char).isPrefixOf q then "DATE"
  else if (['w','h','y'] : List Char).isPrefixOf q then "REASON"
  else "FACT"

/-- The leading whitespace-separated word of a character list. -/
def firstWord (s : List Char) : List Char := (pySplit s).headD []

/-- Two prefixes agreeing on their first two characters but differing at
the third cannot both start the same list. -/
lemma third_distinct (l : List Char) (x y : Char) (rx ry : List Char) (hxy : x ≠ y)
    (hx : (('w' :: 'h' :: x :: rx) : List Char).isPrefixOf l = true) :
    (('w' :: 'h' :: y :: ry) : List Char).isPrefixOf l = false := by
  rw [List.isPrefixOf_iff_prefix] at hx
  obtain ⟨t, rfl⟩ := hx
  by_contra hb
  rw [Bool.not_eq_false, List.isPrefixOf_iff_prefix] at hb
  obtain ⟨u, hu⟩ := hb
  simp only [List.cons_append, List.cons.injEq] at hu
  exact hxy (hu.2.2.1.symm)

/-- C2 counterexample: detect_question_type uses str.startswith, not the
leading word; "Whoever wins?" has leading word "whoever", yet is
classified PERSON_OR_TEAM. -/
theorem detect_question_type_leading_word_counterexample :
    detect_question_type "Whoever wins?".toList = "PERSON_OR_TEAM"
    ∧ firstWord (pyStrip (pyLower "Whoever wins?".toList)) ≠ ['w','h','o'] := by
  constructor
  · decide
  · decide

/-- C2 amended: the classifier inspects only the prefix of the trimmed,
lower-cased question: PERSON_OR_TEAM exactly when it starts with "who",
ENTITY exactly when it starts with "which", DATE exactly with "when",
REASON exactly with "why", FACT exactly when none of the four prefixes
matches.  (The four prefixes are mutually exclusive, so the if-order in
the source does not matter.) -/
theorem detect_question_type_startswith (question : List Char) :
    (detect_question_type question = "PERSON_OR_TEAM" ↔
      (['w','h','o'] : List Char).isPrefixOf (pyStrip (pyLower question)) = true)
    ∧ (detect_question_type question = "ENTITY" ↔
      (['w','h','i','c','h'] : List Char).isPrefixOf (pyStrip (pyLower question)) = true)
    ∧ (detect_question_type question = "DATE" ↔
      (['w','h','e','n'] : List Char).isPrefixOf (pyStrip (pyLower question)) = true)
    ∧ (detect_question_type question = "REASON" ↔
      (['w','h','y'] : List Char).isPrefixOf (pyStrip (pyLower question)) = true)
    ∧ (detect_question_type question = "FACT" ↔
      ((['w','h','o'] : List Char).isPrefixOf (pyStrip (pyLower question)) = false
       ∧ (['w','h','i','c','h'] : List Char).isPrefixOf (pyStrip (pyLower question)) = false
       ∧ (['w','h','e','n'] : List Char).isPrefixOf (pyStrip (pyLower question)) = false
       ∧ (['w','h','y'] : List Char).isPrefixOf (pyStrip (pyLower question)) = false)) := by
  simp only [detect_question_type]
  split_ifs with h1 h2 h3 h4
  · refine ⟨iff_of_true rfl h1, ?_, ?_, ?_, ?_⟩
    · refine iff_of_false (by decide) ?_
      intro h
      have hx := third_distinct _ 'i' 'o' ['c','h'] [] (by decide) h
      simp [hx] at h1
    · refine iff_of_false (by decide) ?_
      intro h
      have hx := third_distinct _ 'e' 'o' ['n'] [] (by decide) h
      simp [hx] at h1
    · refine iff_of_false (by decide) ?_
      intro h
      have hx := third_distinct _ 'y' 'o' [] [] (by decide) h
      simp [hx] at h1
    · refine iff_of_false (by decide) ?_
      intro h
      simp [h1] at h
  · refine ⟨iff_of_false (by decide) (by simp [h1]), iff_of_true rfl h2, ?_, ?_, ?_⟩
    · refine iff_of_false (by decide) ?_
      intro h
      have hx := third_distinct _ 'e' 'i' ['n'] ['c','h'] (by decide) h
      simp [hx] at h2
    · refine iff_of_false (by decide) ?_
      intro h
      have hx := third_distinct _ 'y' 'i' [] ['c','h'] (by decide) h
      simp [hx] at h2
    · refine iff_of_false (by decide) ?_
      intro h
      simp [h2] at h
  · refine ⟨iff_of_false (by decide) (by simp [h1]),
      iff_of_false (by decide) (by simp [h2]), iff_of_true rfl h3, ?_, ?_⟩
    · refine iff_of_false (by decide) ?_
      intro h
      have hx := third_distinct _ 'y' 'e' [] ['n'] (by decide) h
      simp [hx] at h3
    · refine iff_of_false (by decide) ?_
      intro h
      simp [h3] at h
  · refine ⟨iff_of_false (by decide) (by simp [h1]),
      iff_of_false (by decide) (by simp [h2]),
      iff_of_false (by decide) (by simp [h3]), iff_of_true rfl h4, ?_⟩
    refine iff_of_false (by decide) ?_
    intro h
    simp [h4] at h
  · refine ⟨iff_of_false (by decide) (by simp [h1]),
      iff_of_false (by decide) (by simp [h2]),
      iff_of_false (by decide) (by simp [h3]),
      iff_of_false (by decide) (by simp [h4]), ?_⟩
    refine iff_of_true rfl ?_
    refine ⟨?_, ?_, ?_, ?_⟩ <;> rw [Bool.eq_false_iff]
    · exact h1
    · exact h2
    · exact h3
    · exact h4

/-- ASCII word character for Python's \b word boundary: [A-Za-z0-9_]. -/
def isWordChar (c : Char) : Bool := c.isAlphanum || c = '_'

/-- Python's `needle in hay` substring test. -/
def containsSub (hay needle : List Char) : Bool :=
  (List.range (hay.length + 1)).any fun i => needle.isPrefixOf (hay.drop i)

/-- `s if s.endswith('.') else s + '.'`. -/
def ensureDot (l : List Char) : List Char :=
  if l.getLast? = some '.' then l else l ++ ['.']

/-- The \b boundary holds before position i: start of string or a
non-word character on the left. -/
def boundaryBefore (s : List Char) (i : Nat) : Bool :=
  if i = 0 then true
  else
    match s.get? (i - 1) with
    | some c => !isWordChar c
    | none => true

/-- The \b boundary holds at position j on the right of a match ending
there: end of string or a non-word character. -/
def boundaryAfterAt (s : List Char) (j : Nat) : Bool :=
  match s.get? j with
  | some c => !isWordChar c
  | none => true

/-- A case-insensitive word-bounded occurrence of a (lower-case) literal
at position i: models re.search of \b(lit)\b with re.IGNORECASE finding
a match at i, for literals that start and end in a word character. -/
def boundedCiLitAt (s : List Char) (i : Nat) (lit : List Char) : Bool :=
  boundaryBefore s i && lit.isPrefixOf (pyLower (s.drop i))
    && boundaryAfterAt s (i + lit.length)

/-- A case-sensitive word-bounded occurrence of a literal at position i. -/
def boundedLitAt (s : List Char) (i : Nat) (lit : List Char) : Bool :=
  boundaryBefore s i && lit.isPrefixOf (s.drop i)
    && boundaryAfterAt s (i + lit.length)

/-- Truthiness of re.search for `\b(co-?hosted|hosted)\b` with
re.IGNORECASE (answer_generator.py line 39). -/
def hostVerb_search (s : List Char) : Bool :=
  (List.range (s.length + 1)).any fun i =>
    boundedCiLitAt s i "co-hosted".toList || boundedCiLitAt s i "cohosted".toList
      || boundedCiLitAt s i "hosted".toList

/-- Truthiness of re.search for
`\b(because|due to|following|as a result)\b` with re.IGNORECASE
(answer_generator.py line 90). -/
def causal_search (s : List Char) : Bool :=
  (List.range (s.length + 1)).any fun i =>
    boundedCiLitAt s i "because".toList || boundedCiLitAt s i "due to".toList
      || boundedCiLitAt s i "following".toList
      || boundedCiLitAt s i "as a result".toList

/-- The month-name alternatives of MONTH_RE (answer_generator.py line 24)
in source order; matching is case sensitive because MONTH_RE is used
without re.IGNORECASE. -/
def monthNames : List (List Char) :=
  ["January", "February", "March", "April", "May", "June", "July", "August",
   "September", "October", "November", "December", "Jan", "Feb", "Mar", "Apr",
   "Jun", "Jul", "Aug", "Sep", "Sept", "Oct", "Nov", "Dec"].map String.toList

/-- The `\s+\d{1,2},\s*\d{4}` tail of MONTH_RE after the (possibly
dotted) month name: returns the matched characters.  The greedy
quantifiers are maximal-munch here because each is followed by a token
disjoint from its character class, and `\d{1,2}` backtracking reduces to
requiring one or two digits directly followed by the comma. -/
def monthTail (r : List Char) : Option (List Char) :=
  if (r.takeWhile Char.isWhitespace).isEmpty then none
  else if ((r.dropWhile Char.isWhitespace).takeWhile Char.isDigit).length = 0
      ∨ 2 < ((r.dropWhile Char.isWhitespace).takeWhile Char.isDigit).length then none
  else
    match (r.dropWhile Char.isWhitespace).dropWhile Char.isDigit with
    | ',' :: r3 =>
      if 4 ≤ (r3.dropWhile Char.isWhitespace).length
          ∧ ((r3.dropWhile Char.isWhitespace).take 4).all Char.isDigit then
        some (r.takeWhile Char.isWhitespace
          ++ (r.dropWhile Char.isWhitespace).takeWhile Char.isDigit
          ++ ',' :: (r3.takeWhile Char.isWhitespace
              ++ (r3.dropWhile Char.isWhitespace).take 4))
      else none
    | _ => none

/-- MONTH_RE matched against one month-name alternative at the start of
s: the name, an optional period (tried greedily first, as `\.?` does),
then the day-comma-year tail. -/
def monthMatchAt1 (mn : List Char) (s : List Char) : Option (List Char) :=
  if mn.isPrefixOf s then
    match s.drop mn.length with
    | '.' :: r1 =>
      (match monthTail r1 with
       | some t => some (mn ++ '.' :: t)
       | none => (monthTail ('.' :: r1)).map fun t => mn ++ t)
    | r => (monthTail r).map fun t => mn ++ t
  else none

/-- MONTH_RE matched at the start of s: the first month alternative that
lets the whole pattern match wins, as in ordered regex alternation. -/
def monthMatchAtPos (s : List Char) : Option (List Char) :=
  monthNames.findSome? fun mn => monthMatchAt1 mn s

/-- re.search(MONTH_RE, s): group(0) of the leftmost match. -/
def findMonth : List Char → Option (List Char)
  | [] => none
  | c :: t =>
    match monthMatchAtPos (c :: t) with
    | some m => some m
    | none => findMonth t

/-- The `\s*(?:,| from| starting|\.|$)` terminator after the lazy host
group: some whitespace run (backtracking over its length, as `\s*`
does), then one of the literal alternatives or the end of the string. -/
def hostTermOk (r : List Char) : Bool :=
  (List.range ((r.takeWhile Char.isWhitespace).length + 1)).any (fun j =>
    ([','] : List Char).isPrefixOf (r.drop j)
    || (" from".toList).isPrefixOf (r.drop j)
    || (" starting".toList).isPrefixOf (r.drop j)
    || (['.'] : List Char).isPrefixOf (r.drop j))
  || r.all Char.isWhitespace

/-- The lazy `[^.,]*?` group body: grow the capture one character at a
time, stopping at the first position where the terminator matches;
periods and commas cannot be crossed. -/
def lazyCapture : List Char → List Char → Option (List Char)
  | acc, [] => if hostTermOk [] then some acc else none
  | acc, c :: r2 =>
    if hostTermOk (c :: r2) then some acc
    else if c ≠ '.' ∧ c ≠ ',' then lazyCapture (acc ++ [c]) r2 else none

/-- `\s+by\s+` after a host verb, returning the remainder.  Both `\s+`
are maximal-munch safe: the first is followed by the literal "by", the
second by the `[A-Z]` group head, neither of which is whitespace. -/
def afterBySpace (r : List Char) : Option (List Char) :=
  if (r.takeWhile Char.isWhitespace).isEmpty then none
  else
    let r1 := r.dropWhile Char.isWhitespace
    if ("by".toList).isPrefixOf r1 then
      let r2 := r1.drop 2
      if (r2.takeWhile Char.isWhitespace).isEmpty then none
      else some (r2.dropWhile Char.isWhitespace)
    else none

/-- The capture group `([A-Z][^.,]*?)` followed by its terminator. -/
def hostGroupAt (r : List Char) : Option (List Char) :=
  match r with
  | c :: r2 => if 'A' ≤ c ∧ c ≤ 'Z' then lazyCapture [c] r2 else none
  | [] => none

/-- group(1) of re.search for
`co-?hosted\s+by\s+([A-Z][^.,]*?)\s*(?:,| from| starting|\.|$)`
(answer_generator.py line 44): leftmost start position; the two
spellings of the verb are mutually exclusive at any one position. -/
def coHostedByCap (s : List Char) : Option (List Char) :=
  (List.range (s.length + 1)).findSome? fun i =>
    match
      (if ("co-hosted".toList).isPrefixOf (s.drop i) then some 9
       else if ("cohosted".toList).isPrefixOf (s.drop i) then some 8
       else none) with
    | some len =>
      match afterBySpace ((s.drop i).drop len) with
      | some r3 => hostGroupAt r3
      | none => none
    | none => none

/-- group(1) of re.search for
`hosted\s+by\s+([A-Z][^.,]*?)\s*(?:,| from| starting|\.|$)`
(answer_generator.py line 46). -/
def hostedByCap (s : List Char) : Option (List Char) :=
  (List.range (s.length + 1)).findSome? fun i =>
    if ("hosted".toList).isPrefixOf (s.drop i) then
      match afterBySpace ((s.drop i).drop 6) with
      | some r3 => hostGroupAt r3
      | none => none
    else none

/-- The host phrase of the fallback assembly (answer_generator.py lines
43-48): the co-hosted pattern first, the hosted pattern only when the
first found nothing anywhere; the captured group is stripped. -/
def hostCap (s : List Char) : Option (List Char) :=
  match coHostedByCap s with
  | some g => some (pyStrip g)
  | none => (hostedByCap s).map pyStrip

/-- Python truthiness of an optional string. -/
def truthy (o : Option (List Char)) : Bool :=
  match o with
  | some l => !l.isEmpty
  | none => false

/-- The special combined host+date block of extract_short_answer
(answer_generator.py lines 36-58), returning its answer when one of its
returns fires and none when control falls through to the type cascade. -/
def combinedHostDate (s q : List Char) : Option (List Char) :=
  if containsSub q "host".toList
      && (containsSub q "when".toList || containsSub q "start".toList) then
    if hostVerb_search s && (findMonth s).isSome then some (ensureDot s)
    else
      let host := hostCap s
      let date := (findMonth s).map pyStrip
      if truthy host && truthy date then
        some (ensureDot ((host.getD []) ++ (',' :: ' ' :: []) ++ date.getD []))
      else if truthy host then some (host.getD [])
      else if truthy date then some (date.getD [])
      else none
  else none

/-- `[A-Z]`. -/
def isUpperAZ (c : Char) : Bool := 'A' ≤ c && c ≤ 'Z'

/-- `[A-Za-z]`. -/
def isAlphaAZ (c : Char) : Bool := ('A' ≤ c && c ≤ 'Z') || ('a' ≤ c && c ≤ 'z')

/-- `[a-z]`. -/
def isLowerAZ (c : Char) : Bool := 'a' ≤ c && c ≤ 'z'

/-- `[A-Z][A-Za-z]*` at the head of the list, maximal munch, with the
remainder. -/
def capsWordAt : List Char → Option (List Char × List Char)
  | c :: r =>
    if isUpperAZ c then some (c :: r.takeWhile isAlphaAZ, r.dropWhile isAlphaAZ)
    else none
  | [] => none

/-- All extensions of a capitalized phrase by `(?:\s[A-Z][A-Za-z]*)*`
repetitions, in ascending repetition count, each with its remainder.
Greedy matching tries them in reverse order.  The fuel is the remainder
length; every repetition consumes at least two characters, so the fuel
never runs out before the repetitions do. -/
def capsCandsF : Nat → List Char → List Char → List (List Char × List Char)
  | 0, acc, r => [(acc, r)]
  | fuel + 1, acc, r =>
    (acc, r) ::
      (match r with
       | w :: r2 =>
         if w.isWhitespace then
           match capsWordAt r2 with
           | some (wd, r3) => capsCandsF fuel (acc ++ w :: wd) r3
           | none => []
         else []
       | [] => [])

/-- Ascending candidates for `[A-Z][A-Za-z]*(?:\s[A-Z][A-Za-z]*)*`
starting from an already matched first word. -/
def capsCands (acc r : List Char) : List (List Char × List Char) :=
  capsCandsF r.length acc r

/-- The maximal capitalized phrase, as matched by the replacement
pattern's group, which has no trailing \b requirement. -/
def capsMax (acc r : List Char) : List Char :=
  ((capsCands acc r).getLast?.map Prod.fst).getD acc

/-- group(1) of re.search for
`replaced\s+by\s+([A-Z][A-Za-z]*(?:\s[A-Z][A-Za-z]*)*)`
(answer_generator.py line 62); the pattern ends with the group, so the
greedy group is pure maximal munch. -/
def replacedByCap (s : List Char) : Option (List Char) :=
  (List.range (s.length + 1)).findSome? fun i =>
    if ("replaced".toList).isPrefixOf (s.drop i) then
      match afterBySpace ((s.drop i).drop 8) with
      | some r3 =>
        match capsWordAt r3 with
        | some (wd, r4) => some (capsMax wd r4)
        | none => none
      | none => none
    else none

/-- The candidate phrase ends at a valid \b: end of input or a non-word
character.  A phrase candidate always ends in a letter, and shrinking a
word of the phrase always leaves a letter adjacent, so the regex can
end the group only at one of these candidate ends. -/
def validEnd (cand : List Char × List Char) : Bool :=
  match cand.2 with
  | [] => true
  | c :: _ => !isWordChar c

/-- `(r.take j)` holds no period: the region an `[^.]*` can span. -/
def noDot (l : List Char) : Bool := l.all fun c => c != '.'

/-- A word-bounded literal at position pos of r, where the character
before position 0 of r is prev (the last character of the matched
group). -/
def boundedLitFrom (prev : Char) (r : List Char) (pos : Nat) (lit : List Char) : Bool :=
  (if pos = 0 then !isWordChar prev
   else
     match r.get? (pos - 1) with
     | some c => !isWordChar c
     | none => true)
    && lit.isPrefixOf (r.drop pos)
    && (match r.get? (pos + lit.length) with
        | some c => !isWordChar c
        | none => true)

/-- The `[^.]*\b(?:appointed|named|as)\b[^.]*\b(?:captain|coach|skipper)\b`
tail of the name-before-role pattern, matched against the remainder
after the captured group; existence over the two gap lengths models the
backtracking of the two `[^.]*`. -/
def nameRoleTail (prev : Char) (r : List Char) : Bool :=
  (List.range (r.length + 1)).any fun j =>
    noDot (r.take j) &&
      (["appointed".toList, "named".toList, "as".toList]).any fun v =>
        boundedLitFrom prev r j v &&
          (List.range (r.length - (j + v.length) + 1)).any fun k =>
            noDot ((r.drop (j + v.length)).take k) &&
              (["captain".toList, "coach".toList, "skipper".toList]).any fun ro =>
                boundedLitFrom prev r (j + v.length + k) ro

/-- group(1) of re.search for the name-before-role pattern
(answer_generator.py line 69): at the leftmost viable start, the
largest \b-valid capitalized phrase whose remainder matches the tail. -/
def nameRoleCap (s : List Char) : Option (List Char) :=
  (List.range (s.length + 1)).findSome? fun i =>
    if boundaryBefore s i then
      match capsWordAt (s.drop i) with
      | some (wd, r) =>
        (capsCands wd r).reverse.findSome? fun cand =>
          if validEnd cand && nameRoleTail (cand.1.getLastD ' ') cand.2 then
            some cand.1
          else none
      | none => none
    else none

/-- group(1) of re.search for
`\b(?:captain|coach|skipper)\b[^.]*?\b([A-Z][A-Za-z]*(?:\s[A-Z][A-Za-z]*)*)\b`
(answer_generator.py line 75): leftmost word-bounded role word, then the
lazy no-period gap grows until a \b-valid capitalized phrase starts;
the phrase itself is greedy. -/
def roleNameCap (s : List Char) : Option (List Char) :=
  (List.range (s.length + 1)).findSome? fun i =>
    (["captain".toList, "coach".toList, "skipper".toList]).findSome? fun ro =>
      if boundedLitAt s i ro then
        (List.range (s.length - (i + ro.length) + 1)).findSome? fun j =>
          if noDot ((s.drop (i + ro.length)).take j)
              && boundaryBefore s (i + ro.length + j) then
            match capsWordAt (s.drop (i + ro.length + j)) with
            | some (wd, r) =>
              (capsCands wd r).reverse.findSome? fun cand =>
                if validEnd cand then some cand.1 else none
            | none => none
          else none
      else none

/-- `[A-Z][a-z]+` at the head of the list: a capitalized word with at
least one lower-case letter, maximal munch. -/
def properWordAt : List Char → Option (List Char × List Char)
  | c :: r =>
    if isUpperAZ c then
      if (r.takeWhile isLowerAZ).isEmpty then none
      else some (c :: r.takeWhile isLowerAZ, r.dropWhile isLowerAZ)
    else none
  | [] => none

/-- Ascending candidates for `[A-Z][a-z]+(?:\s[A-Z][a-z]+)*`. -/
def properCandsF : Nat → List Char → List Char → List (List Char × List Char)
  | 0, acc, r => [(acc, r)]
  | fuel + 1, acc, r =>
    (acc, r) ::
      (match r with
       | w :: r2 =>
         if w.isWhitespace then
           match properWordAt r2 with
           | some (wd, r3) => properCandsF fuel (acc ++ w :: wd) r3
           | none => []
         else []
       | [] => [])

/-- re.findall of `\b[A-Z][a-z]+(?:\s[A-Z][a-z]+)*\b` from
_extract_proper_nouns (answer_generator.py lines 27-29): scan left to
right, emit the greedy \b-valid match at each match start, and continue
after it; fuel is one more than the remaining length, and every step
consumes at least one character. -/
def properScanF : Nat → Char → List Char → List (List Char)
  | 0, _, _ => []
  | fuel + 1, prev, r =>
    match r with
    | [] => []
    | c :: r2 =>
      if !isWordChar prev then
        match properWordAt r with
        | some (wd, rest) =>
          match (properCandsF rest.length wd rest).reverse.findSome? (fun cand =>
              if validEnd cand then some cand else none) with
          | some cand => cand.1 :: properScanF fuel (cand.1.getLastD ' ') cand.2
          | none => properScanF fuel c r2
        | none => properScanF fuel c r2
      else properScanF fuel c r2

/-- _extract_proper_nouns (answer_generator.py lines 27-29). -/
def extract_proper_nouns (s : List Char) : List (List Char) :=
  properScanF (s.length + 1) ' ' s

/-- Python's max(items, key=len): the first item of maximal length. -/
def pyMaxByLen : List (List Char) → List Char
  | [] => []
  | h :: t => t.foldl (fun b e => if b.length < e.length then e else b) h

/-- The PERSON_OR_TEAM / ENTITY branch of extract_short_answer
(answer_generator.py lines 60-86). -/
def extractPersonEntity (s : List Char) : List Char :=
  match (replacedByCap s).map pyStrip with
  | some ans => ans
  | none =>
    match (nameRoleCap s).map pyStrip with
    | some ans => ans
    | none =>
      match (roleNameCap s).map pyStrip with
      | some ans => ans
      | none =>
        let ents := extract_proper_nouns s
        if ents.isEmpty then s
        else
          let multi := ents.filter fun e => e.contains ' '
          pyMaxByLen (if multi.isEmpty then ents else multi)

/-- The lazy `(.*?)(?:\.|$)` of the due-to reconstruction: grow the
captured phrase until a period, the end of the string, or the position
before a trailing newline ($ without re.MULTILINE); `.` cannot cross a
newline, so an interior newline kills the match. -/
def lazyPhrase : List Char → Option (List Char)
  | [] => some []
  | c :: r =>
    if c = '.' then some []
    else if c = '\n' then (if r.isEmpty then some [] else none)
    else (lazyPhrase r).map fun t => c :: t

/-- group(1) of re.search for `due to\s+(.*?)(?:\.|$)` with re.IGNORECASE
(answer_generator.py line 93): leftmost occurrence of "due to" followed
by whitespace; `\s+` is maximal munch (a shorter run only prepends
whitespace to the lazy group and succeeds or fails identically). -/
def dueToCap (s : List Char) : Option (List Char) :=
  (List.range (s.length + 1)).findSome? fun i =>
    if ("due to".toList).isPrefixOf (pyLower (s.drop i)) then
      if (((s.drop i).drop 6).takeWhile Char.isWhitespace).isEmpty then none
      else lazyPhrase (((s.drop i).drop 6).dropWhile Char.isWhitespace)
    else none

/-- The REASON branch of extract_short_answer (answer_generator.py lines
88-98). -/
def extractReason (s : List Char) : List Char :=
  if causal_search s then ensureDot s
  else
    match dueToCap s with
    | some phrase => ensureDot ("Because ".toList ++ pyStrip phrase)
    | none => ensureDot s

/-- extract_short_answer (answer_generator.py lines 32-106): strip the
sentence, lower-case the question, run the combined host+date block,
then the type cascade. -/
def extract_short_answer (sentence : List Char) (qtype : String)
    (question : List Char) : List Char :=
  let s := pyStrip sentence
  let q := pyLower question
  match combinedHostDate s q with
  | some ans => ans
  | none =>
    if qtype = "PERSON_OR_TEAM" ∨ qtype = "ENTITY" then extractPersonEntity s
    else if qtype = "REASON" then extractReason s
    else if qtype = "DATE" then
      match findMonth s with
      | some m => m
      | none => s
    else ensureDot s

lemma getLast?_mem_of_eq {l : List Char} {a : Char} (h : l.getLast? = some a) : a ∈ l := by
  have hx : a ∈ l.getLast? := by rw [h]; rfl
  obtain ⟨hne, rfl⟩ := List.mem_getLast?_eq_getLast hx
  exact List.getLast_mem hne

lemma upperAZ_not_ws (c : Char) (h1 : 'A' ≤ c) : c.isWhitespace = false := by
  have h2 : c ≠ ' ' := by intro h; subst h; exact absurd h1 (by decide)
  have h3 : c ≠ '\t' := by intro h; subst h; exact absurd h1 (by decide)
  have h4 : c ≠ '\r' := by intro h; subst h; exact absurd h1 (by decide)
  have h5 : c ≠ '\n' := by intro h; subst h; exact absurd h1 (by decide)
  simp [Char.isWhitespace, h2, h3, h4, h5]

lemma digit_not_ws (c : Char) (h : c.isDigit = true) : c.isWhitespace = false := by
  have h1 : '0' ≤ c := by
    simp [Char.isDigit] at h
    exact h.1
  have h2 : c ≠ ' ' := by intro h; subst h; exact absurd h1 (by decide)
  have h3 : c ≠ '\t' := by intro h; subst h; exact absurd h1 (by decide)
  have h4 : c ≠ '\r' := by intro h; subst h; exact absurd h1 (by decide)
  have h5 : c ≠ '\n' := by intro h; subst h; exact absurd h1 (by decide)
  simp [Char.isWhitespace, h2, h3, h4, h5]

lemma digit_ne_dot (c : Char) (h : c.isDigit = true) : c ≠ '.' := by
  intro hc
  subst hc
  simp [Char.isDigit] at h

/-- Stripping preserves a non-whitespace last character. -/
lemma pyStrip_getLast (l : List Char) (c : Char) (hlast : l.getLast? = some c)
    (hc : c.isWhitespace = false) : (pyStrip l).getLast? = some c := by
  have hne : l ≠ [] := by intro h; subst h; simp at hlast
  set m := l.dropWhile Char.isWhitespace with hm
  have hmlast : m.getLast? = some c := by
    by_cases hmn : m = []
    · exfalso
      have := List.dropWhile_eq_nil_iff.mp (hm ▸ hmn)
      have hcmem : c ∈ l := getLast?_mem_of_eq hlast
      have := this c hcmem
      simp [hc] at this
    · have hsplit : l.takeWhile Char.isWhitespace ++ m = l := by
        rw [hm]; exact List.takeWhile_append_dropWhile Char.isWhitespace l
      calc m.getLast? = (l.takeWhile Char.isWhitespace ++ m).getLast? :=
            (List.getLast?_append_of_ne_nil _ hmn).symm
        _ = l.getLast? := by rw [hsplit]
        _ = some c := hlast
  have hrev : m.reverse.head? = some c := by
    rw [List.head?_reverse, hmlast]
  obtain ⟨t, ht⟩ : ∃ t, m.reverse = c :: t := by
    cases hmr : m.reverse with
    | nil => rw [hmr] at hrev; simp at hrev
    | cons x t =>
      rw [hmr] at hrev
      simp at hrev
      exact ⟨t, by rw [hrev]⟩
  rw [pyStrip, ← hm, ht]
  rw [List.dropWhile_cons, hc]
  simp

lemma pyStrip_ne_nil_of_head (u : Char) (rest : List Char)
    (hu : u.isWhitespace = false) : pyStrip (u :: rest) ≠ [] := by
  rw [pyStrip]
  intro h
  rw [List.dropWhile_cons, hu] at h
  simp only [Bool.false_eq_true, if_false] at h
  have h2 := List.reverse_eq_nil_iff.mp h
  have h3 := List.dropWhile_eq_nil_iff.mp h2
  have : u ∈ (u :: rest).reverse := by simp
  have := h3 u this
  simp [hu] at this

lemma lazyCapture_shape :
    ∀ r acc out, lazyCapture acc r = some out → ∃ t, out = acc ++ t := by
  intro r
  induction r with
  | nil =>
    intro acc out h
    rw [lazyCapture, if_pos (by decide)] at h
    exact ⟨[], by simpa using h.symm⟩
  | cons c r2 ih =>
    intro acc out h
    rw [lazyCapture] at h
    by_cases h1 : hostTermOk (c :: r2)
    · rw [if_pos h1] at h
      exact ⟨[], by simpa using h.symm⟩
    · rw [if_neg h1] at h
      by_cases h2 : c ≠ '.' ∧ c ≠ ','
      · rw [if_pos h2] at h
        obtain ⟨t, ht⟩ := ih (acc ++ [c]) out h
        exact ⟨c :: t, by simpa using ht⟩
      · rw [if_neg h2] at h
        exact absurd h (by simp)

lemma hostGroupAt_shape (r g : List Char) (h : hostGroupAt r = some g) :
    ∃ c t, g = c :: t ∧ 'A' ≤ c := by
  match r with
  | [] => simp [hostGroupAt] at h
  | c :: r2 =>
    rw [hostGroupAt] at h
    by_cases hc : 'A' ≤ c ∧ c ≤ 'Z'
    · rw [if_pos hc] at h
      obtain ⟨t, ht⟩ := lazyCapture_shape r2 [c] g h
      exact ⟨c, t, by simpa using ht, hc.1⟩
    · rw [if_neg hc] at h
      exact absurd h (by simp)

lemma hostCap_ne_nil (s h : List Char) (hc : hostCap s = some h) : h ≠ [] := by
  rw [hostCap] at hc
  have key : ∀ g : List Char, (∃ c t, g = c :: t ∧ 'A' ≤ c) → pyStrip g ≠ [] := by
    rintro g ⟨c, t, rfl, hAc⟩
    exact pyStrip_ne_nil_of_head c t (upperAZ_not_ws c hAc)
  cases hco : coHostedByCap s with
  | some g =>
    rw [hco] at hc
    obtain ⟨i, _, hi⟩ := List.exists_of_findSome?_eq_some hco
    have hg : ∃ c t, g = c :: t ∧ 'A' ≤ c := by
      split at hi
      case h_1 len hlen =>
        split at hi
        case h_1 r3 hr3 => exact hostGroupAt_shape r3 g hi
        case h_2 => exact absurd hi (by simp)
      case h_2 => exact absurd hi (by simp)
    have := key g hg
    simp only [Option.some.injEq] at hc
    rw [← hc]
    exact this
  | none =>
    rw [hco] at hc
    cases hho : hostedByCap s with
    | some g =>
      rw [hho] at hc
      obtain ⟨i, _, hi⟩ := List.exists_of_findSome?_eq_some hho
      have hg : ∃ c t, g = c :: t ∧ 'A' ≤ c := by
        split at hi
        case isTrue =>
          split at hi
          case h_1 r3 hr3 => exact hostGroupAt_shape r3 g hi
          case h_2 => exact absurd hi (by simp)
        case isFalse => exact absurd hi (by simp)
      have hstrip := key g hg
      have : h = pyStrip g := by
        simp only [Option.map_some'] at hc
        exact (Option.some.injEq _ _ ▸ hc :).symm
      rw [this]
      exact hstrip
    | none =>
      rw [hho] at hc
      simp at hc

lemma monthTail_getLast (r t : List Char) (h : monthTail r = some t) :
    ∃ c, t.getLast? = some c ∧ c.isDigit = true := by
  rw [monthTail] at h
  split at h
  · exact absurd h (by simp)
  · split at h
    · exact absurd h (by simp)
    · split at h
      case h_1 r3 hr3 =>
        split at h
        case isTrue hcond =>
          simp only [Option.some.injEq] at h
          have hlen4 : ((r3.dropWhile Char.isWhitespace).take 4).length = 4 := by
            rw [List.length_take]
            omega
          have hne4 : (r3.dropWhile Char.isWhitespace).take 4 ≠ [] := by
            intro hx
            rw [hx] at hlen4
            simp at hlen4
          obtain ⟨c, hc⟩ : ∃ c, ((r3.dropWhile Char.isWhitespace).take 4).getLast? = some c :=
            ⟨_, List.getLast?_eq_getLast_of_ne_nil hne4⟩
          refine ⟨c, ?_, ?_⟩
          · rw [← h]
            rw [List.getLast?_append_of_ne_nil _ (by simp :
              (',' :: (r3.takeWhile Char.isWhitespace
                ++ (r3.dropWhile Char.isWhitespace).take 4) : List Char) ≠ [])]
            rw [show (',' :: (r3.takeWhile Char.isWhitespace
                ++ (r3.dropWhile Char.isWhitespace).take 4) : List Char)
              = [','] ++ (r3.takeWhile Char.isWhitespace
                ++ (r3.dropWhile Char.isWhitespace).take 4) from rfl]
            rw [List.getLast?_append_of_ne_nil _ (by simp [hne4])]
            rw [List.getLast?_append_of_ne_nil _ hne4]
            exact hc
          · have hmem : c ∈ (r3.dropWhile Char.isWhitespace).take 4 := getLast?_mem_of_eq hc
            have hall := hcond.2
            rw [List.all_eq_true] at hall
            exact hall c hmem
        case isFalse => exact absurd h (by simp)
      case h_2 => exact absurd h (by simp)

lemma monthMatchAt1_getLast (mn s m : List Char) (h : monthMatchAt1 mn s = some m) :
    ∃ c, m.getLast? = some c ∧ c.isDigit = true := by
  rw [monthMatchAt1] at h
  split at h
  · split at h
    case h_1 r1 hdrop =>
      split at h
      case h_1 t ht =>
        simp only [Option.some.injEq] at h
        obtain ⟨c, hc, hd⟩ := monthTail_getLast r1 t ht
        refine ⟨c, ?_, hd⟩
        rw [← h]
        have htne : t ≠ [] := by intro hx; subst hx; simp at hc
        rw [show ('.' :: t : List Char) = ['.'] ++ t from rfl]
        rw [List.getLast?_append_of_ne_nil _ (by simp [htne])]
        rw [List.getLast?_append_of_ne_nil _ htne]
        exact hc
      case h_2 =>
        simp only [Option.map_eq_some'] at h
        obtain ⟨t, ht, hmt⟩ := h
        obtain ⟨c, hc, hd⟩ := monthTail_getLast _ t ht
        refine ⟨c, ?_, hd⟩
        rw [← hmt]
        have htne : t ≠ [] := by intro hx; subst hx; simp at hc
        rw [List.getLast?_append_of_ne_nil _ htne]
        exact hc
    case h_2 r hr =>
      simp only [Option.map_eq_some'] at h
      obtain ⟨t, ht, hmt⟩ := h
      obtain ⟨c, hc, hd⟩ := monthTail_getLast _ t ht
      refine ⟨c, ?_, hd⟩
      rw [← hmt]
      have htne : t ≠ [] := by intro hx; subst hx; simp at hc
      rw [List.getLast?_append_of_ne_nil _ htne]
      exact hc
  · exact absurd h (by simp)

lemma monthMatchAtPos_getLast (s m : List Char) (h : monthMatchAtPos s = some m) :
    ∃ c, m.getLast? = some c ∧ c.isDigit = true := by
  obtain ⟨mn, _, hmn⟩ := List.exists_of_findSome?_eq_some h
  exact monthMatchAt1_getLast mn s m hmn

lemma findMonth_getLast :
    ∀ s m : List Char, findMonth s = some m →
      ∃ c, m.getLast? = some c ∧ c.isDigit = true := by
  intro s
  induction s with
  | nil => intro m h; simp [findMonth] at h
  | cons x t ih =>
    intro m h
    rw [findMonth] at h
    split at h
    case h_1 m2 hm2 =>
      simp only [Option.some.injEq] at h
      subst h
      exact monthMatchAtPos_getLast _ _ hm2
    case h_2 => exact ih m h

/-- findMonth is the leftmost match of MONTH_RE. -/
lemma findMonth_leftmost :
    ∀ s m : List Char, findMonth s = some m →
      ∃ i, monthMatchAtPos (s.drop i) = some m
        ∧ ∀ j < i, monthMatchAtPos (s.drop j) = none := by
  intro s
  induction s with
  | nil => intro m h; simp [findMonth] at h
  | cons x t ih =>
    intro m h
    rw [findMonth] at h
    split at h
    case h_1 m2 hm2 =>
      simp only [Option.some.injEq] at h
      subst h
      exact ⟨0, by simpa using hm2, by omega⟩
    case h_2 hnone =>
      obtain ⟨i, hi, hall⟩ := ih m h
      refine ⟨i + 1, by simpa using hi, ?_⟩
      intro j hj
      match j with
      | 0 => simpa using hnone
      | k + 1 =>
        have := hall k (by omega)
        simpa using this

lemma truthy_some (l : List Char) (hl : l ≠ []) : truthy (some l) = true := by
  simp [truthy, hl]

lemma ws_not_word (c : Char) (h : c.isWhitespace = true) : isWordChar c = false := by
  rw [Char.isWhitespace] at h
  simp only [Bool.or_eq_true, beq_iff_eq, decide_eq_true_eq] at h
  rcases h with ((rfl | rfl) | rfl) | rfl <;> decide

/-- The stripped date captured by the fallback assembly is nonempty and
ends in a digit. -/
lemma findMonth_strip_getLast (s d : List Char) (h : findMonth s = some d) :
    ∃ c, (pyStrip d).getLast? = some c ∧ c.isDigit = true := by
  obtain ⟨c, hc, hd⟩ := findMonth_getLast s d h
  exact ⟨c, pyStrip_getLast d c hc (digit_not_ws c hd), hd⟩

/-- C4: the combined host+date rule.  For a question containing "host"
and "when" or "start": when the sentence has a word-bounded hosting verb
and a MONTH_RE date, the (stripped) sentence is returned with a trailing
period ensured, whatever the question type; otherwise the fallback
returns host and stripped date joined as "host, date." when both
captures succeed, the host alone when only the host capture succeeds,
and the stripped date alone when only the date is found. -/
theorem extract_combined_host_date (sentence question : List Char) (qtype : String)
    (hhost : containsSub (pyLower question) "host".toList = true)
    (htime : containsSub (pyLower question) "when".toList = true
             ∨ containsSub (pyLower question) "start".toList = true) :
    (hostVerb_search (pyStrip sentence) = true →
      (findMonth (pyStrip sentence)).isSome = true →
      extract_short_answer sentence qtype question = ensureDot (pyStrip sentence))
    ∧ (hostVerb_search (pyStrip sentence) = false
        ∨ (findMonth (pyStrip sentence)).isSome = false →
      (∀ h d, hostCap (pyStrip sentence) = some h →
        findMonth (pyStrip sentence) = some d →
        extract_short_answer sentence qtype question =
          (h ++ ',' :: ' ' :: pyStrip d) ++ ['.'])
      ∧ (∀ h, hostCap (pyStrip sentence) = some h →
        findMonth (pyStrip sentence) = none →
        extract_short_answer sentence qtype question = h)
      ∧ (∀ d, hostCap (pyStrip sentence) = none →
        findMonth (pyStrip sentence) = some d →
        extract_short_answer sentence qtype question = pyStrip d)) := by
  have hguard : (containsSub (pyLower question) "host".toList
      && (containsSub (pyLower question) "when".toList
          || containsSub (pyLower question) "start".toList)) = true := by
    rcases htime with h | h <;> rw [hhost, h] <;> simp
  constructor
  · intro hverb hdate
    have hcomb : combinedHostDate (pyStrip sentence) (pyLower question) =
        some (ensureDot (pyStrip sentence)) := by
      rw [combinedHostDate, if_pos hguard, if_pos (by simp [hverb, hdate])]
    rw [extract_short_answer]
    simp only [hcomb]
  · intro hnv
    have hinner : (hostVerb_search (pyStrip sentence)
        && (findMonth (pyStrip sentence)).isSome) = false := by
      rcases hnv with h | h <;> simp [h]
    refine ⟨?_, ?_, ?_⟩
    · intro h d hh hd
      obtain ⟨c, hc, hcd⟩ := findMonth_strip_getLast (pyStrip sentence) d hd
      have hdne : pyStrip d ≠ [] := by intro hx; rw [hx] at hc; simp at hc
      have hcomb : combinedHostDate (pyStrip sentence) (pyLower question) =
          some (ensureDot (h ++ ',' :: ' ' :: pyStrip d)) := by
        rw [combinedHostDate, if_pos hguard, if_neg (by simp [hinner])]
        simp only [hh, hd, Option.map_some']
        rw [if_pos (by simp [truthy_some h (hostCap_ne_nil _ h hh), truthy_some _ hdne])]
        simp
      have hdot : ensureDot (h ++ ',' :: ' ' :: pyStrip d) =
          (h ++ ',' :: ' ' :: pyStrip d) ++ ['.'] := by
        rw [ensureDot]
        have hlast : (h ++ ',' :: ' ' :: pyStrip d).getLast? = some c := by
          rw [List.getLast?_append_of_ne_nil _ (by simp)]
          rw [show (',' :: ' ' :: pyStrip d : List Char) = [',', ' '] ++ pyStrip d from rfl]
          rw [List.getLast?_append_of_ne_nil _ hdne]
          exact hc
        rw [hlast, if_neg (by simp [digit_ne_dot c hcd])]
      rw [extract_short_answer]
      simp only [hcomb, hdot]
    · intro h hh hd
      have hcomb : combinedHostDate (pyStrip sentence) (pyLower question) = some h := by
        rw [combinedHostDate, if_pos hguard, if_neg (by simp [hinner])]
        simp only [hh, hd, Option.map_none']
        rw [if_neg (by simp [truthy]), if_pos (by simp [truthy_some h (hostCap_ne_nil _ h hh)])]
        simp
      rw [extract_short_answer]
      simp only [hcomb]
    · intro d hh hd
      obtain ⟨c, hc, hcd⟩ := findMonth_strip_getLast (pyStrip sentence) d hd
      have hdne : pyStrip d ≠ [] := by intro hx; rw [hx] at hc; simp at hc
      have hcomb : combinedHostDate (pyStrip sentence) (pyLower question) =
          some (pyStrip d) := by
        rw [combinedHostDate, if_pos hguard, if_neg (by simp [hinner])]
        simp only [hh, hd, Option.map_some']
        rw [if_neg (by simp [truthy]), if_neg (by simp [truthy]),
          if_pos (truthy_some _ hdne)]
        simp
      rw [extract_short_answer]
      simp only [hcomb]

/-- C8: the DATE branch of the type cascade.  When the combined host+date
case does not fire and the question type is DATE, the extractor returns
group(0) of the leftmost MONTH_RE match when one exists, and the
(stripped) sentence unmodified otherwise. -/
theorem extract_date_type (sentence question : List Char)
    (hcf : combinedHostDate (pyStrip sentence) (pyLower question) = none) :
    (∀ d, findMonth (pyStrip sentence) = some d →
       extract_short_answer sentence "DATE" question = d
       ∧ ∃ i, monthMatchAtPos ((pyStrip sentence).drop i) = some d
           ∧ ∀ j < i, monthMatchAtPos ((pyStrip sentence).drop j) = none)
    ∧ (findMonth (pyStrip sentence) = none →
       extract_short_answer sentence "DATE" question = pyStrip sentence) := by
  constructor
  · intro d hd
    constructor
    · rw [extract_short_answer]
      simp only [hcf]
      simp [hd]
    · exact findMonth_leftmost (pyStrip sentence) d hd
  · intro hd
    rw [extract_short_answer]
    simp only [hcf]
    simp [hd]

/-- A word-bounded, case-insensitive occurrence of "due to" somewhere in
the sentence. -/
def dueToBounded (s : List Char) : Bool :=
  (List.range (s.length + 1)).any fun i => boundedCiLitAt s i "due to".toList

/-- C9: the REASON branch and "due to".  A word-bounded "due to" makes
the causal-marker check fire, so the whole (stripped) sentence comes
back with a trailing period and the "Because ..." reconstruction is
never used; and the reconstruction can fire only when the sentence has a
"due to" occurrence with a word character immediately before it (no
leading word boundary), because a boundedly occurring "due to" would
have satisfied the first check. -/
theorem extract_reason_due_to (sentence question : List Char)
    (hcf : combinedHostDate (pyStrip sentence) (pyLower question) = none) :
    (dueToBounded (pyStrip sentence) = true →
       extract_short_answer sentence "REASON" question = ensureDot (pyStrip sentence))
    ∧ (∀ ph, causal_search (pyStrip sentence) = false →
        dueToCap (pyStrip sentence) = some ph →
        ∃ i, ("due to".toList).isPrefixOf (pyLower ((pyStrip sentence).drop i)) = true
          ∧ 0 < i
          ∧ ∃ c, (pyStrip sentence).get? (i - 1) = some c ∧ isWordChar c = true) := by
  constructor
  · intro hb
    have hcaus : causal_search (pyStrip sentence) = true := by
      rw [dueToBounded, List.any_eq_true] at hb
      obtain ⟨i, hmem, hp⟩ := hb
      rw [causal_search, List.any_eq_true]
      refine ⟨i, hmem, ?_⟩
      simp only [Bool.or_eq_true]
      exact Or.inl (Or.inl (Or.inr hp))
    rw [extract_short_answer]
    simp only [hcf]
    simp [extractReason, hcaus]
  · intro ph hcaus hcap
    obtain ⟨i, himem, hfi⟩ := List.exists_of_findSome?_eq_some hcap
    split at hfi
    case isTrue hpre =>
      split at hfi
      case isTrue => exact absurd hfi (by simp)
      case isFalse hws =>
        have hdrop6 : ((pyStrip sentence).drop i).drop 6 = (pyStrip sentence).drop (i + 6) := by
          rw [List.drop_drop]
        obtain ⟨w, rr, hwr, hwws⟩ : ∃ w rr,
            (pyStrip sentence).drop (i + 6) = w :: rr ∧ w.isWhitespace = true := by
          rw [hdrop6] at hws
          cases hx : (pyStrip sentence).drop (i + 6) with
          | nil => rw [hx] at hws; simp at hws
          | cons w rr =>
            rw [hx, List.takeWhile_cons] at hws
            by_cases hw : w.isWhitespace
            · exact ⟨w, rr, rfl, hw⟩
            · rw [if_neg (by simp [hw])] at hws
              simp at hws
        have hafter : boundaryAfterAt (pyStrip sentence) (i + 6) = true := by
          rw [boundaryAfterAt]
          have hgw : (pyStrip sentence).get? (i + 6) = some w := by
            rw [List.get?_eq_getElem?]
            have h2 := congrArg List.head? hwr
            rwa [List.head?_drop, List.head?_cons] at h2
          rw [hgw]
          simp [ws_not_word w hwws]
        by_cases hbb : boundaryBefore (pyStrip sentence) i = true
        · exfalso
          have : causal_search (pyStrip sentence) = true := by
            rw [causal_search, List.any_eq_true]
            refine ⟨i, himem, ?_⟩
            have hb : boundedCiLitAt (pyStrip sentence) i "due to".toList = true := by
              rw [boundedCiLitAt, hbb, hpre]
              simpa using hafter
            simp only [Bool.or_eq_true]
            exact Or.inl (Or.inl (Or.inr hb))
          rw [this] at hcaus
          exact absurd hcaus (by simp)
        · have hbb2 := Bool.eq_false_iff.mpr hbb
          rw [boundaryBefore] at hbb2
          by_cases hi0 : i = 0
          · rw [if_pos hi0] at hbb2
            exact absurd hbb2 (by simp)
          · rw [if_neg hi0] at hbb2
            cases hg : (pyStrip sentence).get? (i - 1) with
            | none => rw [hg] at hbb2; simp at hbb2
            | some c =>
              rw [hg] at hbb2
              refine ⟨i, hpre, by omega, c, hg, ?_⟩
              simpa using hbb2
    case isFalse => exact absurd hfi (by simp)

/-- Witness sentence for C4, from the spec's worked example. -/
def c4Sentence : List Char := "Co-hosted by India and Sri Lanka, starting February 7, 2026.".toList

/-- Witness question for C4. -/
def c4Question : List Char := "Who is hosting the tournament and when does it start?".toList

/-- Witness for C4: the combined host+date theorem applied at the spec's
worked example, with question type FACT to exercise the
type-independence of the combined rule. -/
theorem extract_combined_host_date_witness :
    (containsSub (pyLower c4Question) "host".toList = true
     ∧ (containsSub (pyLower c4Question) "when".toList = true
        ∨ containsSub (pyLower c4Question) "start".toList = true))
    ∧ ((hostVerb_search (pyStrip c4Sentence) = true →
         (findMonth (pyStrip c4Sentence)).isSome = true →
         extract_short_answer c4Sentence "FACT" c4Question = ensureDot (pyStrip c4Sentence))
       ∧ (hostVerb_search (pyStrip c4Sentence) = false
           ∨ (findMonth (pyStrip c4Sentence)).isSome = false →
         (∀ h d, hostCap (pyStrip c4Sentence) = some h →
           findMonth (pyStrip c4Sentence) = some d →
           extract_short_answer c4Sentence "FACT" c4Question =
             (h ++ ',' :: ' ' :: pyStrip d) ++ ['.'])
         ∧ (∀ h, hostCap (pyStrip c4Sentence) = some h →
           findMonth (pyStrip c4Sentence) = none →
           extract_short_answer c4Sentence "FACT" c4Question = h)
         ∧ (∀ d, hostCap (pyStrip c4Sentence) = none →
           findMonth (pyStrip c4Sentence) = some d →
           extract_short_answer c4Sentence "FACT" c4Question = pyStrip d))) :=
  ⟨⟨by decide, Or.inl (by decide)⟩,
    extract_combined_host_date c4Sentence c4Question "FACT" (by decide)
      (Or.inl (by decide))⟩

/-- Witness sentence for C8, from the spec's worked example. -/
def c8Sentence : List Char := "The tournament starts February 7, 2026.".toList

/-- Witness question for C8. -/
def c8Question : List Char := "When does it start?".toList

/-- Witness for C8: the DATE-branch theorem applied at the spec's date
extraction example; the question has no "host", so the combined case
cannot fire. -/
theorem extract_date_type_witness :
    combinedHostDate (pyStrip c8Sentence) (pyLower c8Question) = none
    ∧ ((∀ d, findMonth (pyStrip c8Sentence) = some d →
         extract_short_answer c8Sentence "DATE" c8Question = d
         ∧ ∃ i, monthMatchAtPos ((pyStrip c8Sentence).drop i) = some d
             ∧ ∀ j < i, monthMatchAtPos ((pyStrip c8Sentence).drop j) = none)
       ∧ (findMonth (pyStrip c8Sentence) = none →
         extract_short_answer c8Sentence "DATE" c8Question = pyStrip c8Sentence)) :=
  ⟨by decide, extract_date_type c8Sentence c8Question (by decide)⟩

/-- Witness sentence for C9: "due to" occurs only inside "overdue to". -/
def c9Sentence : List Char := "It was overdue to arrive".toList

/-- Witness question for C9. -/
def c9Question : List Char := "Why was it late?".toList

/-- Witness for C9: the REASON-branch theorem applied at a sentence whose
only "due to" lacks a leading word boundary. -/
theorem extract_reason_due_to_witness :
    combinedHostDate (pyStrip c9Sentence) (pyLower c9Question) = none
    ∧ ((dueToBounded (pyStrip c9Sentence) = true →
         extract_short_answer c9Sentence "REASON" c9Question = ensureDot (pyStrip c9Sentence))
       ∧ (∀ ph, causal_search (pyStrip c9Sentence) = false →
           dueToCap (pyStrip c9Sentence) = some ph →
           ∃ i, ("due to".toList).isPrefixOf (pyLower ((pyStrip c9Sentence).drop i)) = true
             ∧ 0 < i
             ∧ ∃ c, (pyStrip c9Sentence).get? (i - 1) = some c ∧ isWordChar c = true)) :=
  ⟨by decide, extract_reason_due_to c9Sentence c9Question (by decide)⟩

/-- Python's str.splitlines for the line terminators \n, \r\n and \r
(the ones that can occur in this pipeline's ASCII texts): no trailing
empty line for a terminal terminator. -/
def pySplitlinesAux : List Char → List Char → List (List Char)
  | acc, [] => [acc.reverse]
  | acc, '\r' :: '\n' :: rest =>
    acc.reverse :: (if rest.isEmpty then [] else pySplitlinesAux [] rest)
  | acc, '\n' :: rest =>
    acc.reverse :: (if rest.isEmpty then [] else pySplitlinesAux [] rest)
  | acc, '\r' :: rest =>
    acc.reverse :: (if rest.isEmpty then [] else pySplitlinesAux [] rest)
  | acc, c :: rest => pySplitlinesAux (c :: acc) rest

/-- text.splitlines(). -/
def pySplitlines (s : List Char) : List (List Char) :=
  if s.isEmpty then [] else pySplitlinesAux [] s

/-- re.split(r"(?<=[.!?])\s+", line): split at each maximal whitespace
run directly preceded by '.', '!' or '?'.  The fuel is one more than the
remaining length and every step consumes at least one character. -/
def splitPunctF : Nat → Char → List Char → List Char → List (List Char)
  | 0, _, acc, _ => [acc.reverse]
  | _ + 1, _, acc, [] => [acc.reverse]
  | fuel + 1, prev, acc, c :: rest =>
    if c.isWhitespace ∧ (prev = '.' ∨ prev = '!' ∨ prev = '?') then
      acc.reverse :: splitPunctF fuel ' ' [] (rest.dropWhile Char.isWhitespace)
    else splitPunctF fuel c (c :: acc) rest

/-- One line's sentence split. -/
def splitPunct (l : List Char) : List (List Char) :=
  splitPunctF (l.length + 1) ' ' [] l

/-- NaiveRAG._split_sentences (naive_rag.py lines 92-109). -/
def split_sentences (text : List Char) : List (List Char) :=
  let final := (pySplitlines text).flatMap fun line =>
    if (pyStrip line).isEmpty then []
    else (splitPunct (pyStrip line)).filterMap fun p =>
      if (pyStrip p).isEmpty then none else some (pyStrip p)
  if final.isEmpty then [pyStrip text] else final

/-- Inner product of two embedding vectors. -/
def dotQ (a b : List ℚ) : ℚ := (List.zipWith (fun x y => x * y) a b).sum

/-- np.argmax: the first index of the maximum. -/
def argmaxFrom : Nat → Nat → ℚ → List ℚ → Nat
  | best, _, _, [] => best
  | best, i, bv, x :: r =>
    if bv < x then argmaxFrom i (i + 1) x r else argmaxFrom best (i + 1) bv r

/-- np.argmax over a list of similarities (0 on the empty list, which the
caller rules out). -/
def argmaxFirst : List ℚ → Nat
  | [] => 0
  | x :: r => argmaxFrom 0 1 x r

/-- NaiveRAG._best_sentence (naive_rag.py lines 111-121), with the
embedding model a parameter. -/
def best_sentence (encode : List Char → List ℚ) (query text : List Char) : List Char :=
  let sentences := split_sentences text
  if sentences.isEmpty then pyStrip text
  else
    sentences.getD (argmaxFirst (sentences.map fun sn => dotQ (encode sn) (encode query))) []

/-- The chosen-chunk loop of generate_extractive_answer (naive_rag.py
lines 131-135): the first pair whose score is at least min_score. -/
def chooseChunkLoop (minScore : ℚ) : List (Chunk × ℚ) → Option (Chunk × ℚ)
  | [] => none
  | p :: rest => if minScore ≤ p.2 then some p else chooseChunkLoop minScore rest

/-- NaiveRAG.generate_extractive_answer (naive_rag.py lines 123-145).
The embedding model and the score formatter of the report's f-string
(Python's %.3f float rendering) are parameters. -/
def generate_extractive_answer (encode : List Char → List ℚ) (fmt : ℚ → List Char)
    (query : List Char) (retrieved : List (Chunk × ℚ)) (minScore : ℚ) :
    List Char × List Char :=
  if retrieved.isEmpty then ([], "Retrieved Context: (none)".toList)
  else
    let chosen := (chooseChunkLoop minScore retrieved).getD
      (retrieved.headD (Chunk.mk "" 0 [], 0))
    let best := best_sentence encode query chosen.1.text
    let answer := extract_short_answer best (detect_question_type query) query
    let context := List.intercalate "\n\n".toList (retrieved.map fun p =>
      '[' :: (p.1.doc_id.toList ++ '#' :: ((toString p.1.chunk_id).toList
        ++ " | score=".toList ++ fmt p.2 ++ ']' :: '\n' :: p.1.text)))
    (answer, "Retrieved Context:\n".toList ++ context
      ++ "\n\nChosen sentence: ".toList ++ best)

lemma chooseChunkLoop_eq_find (minScore : ℚ) :
    ∀ l : List (Chunk × ℚ),
      chooseChunkLoop minScore l = l.find? fun p => decide (minScore ≤ p.2) := by
  intro l
  induction l with
  | nil => rfl
  | cons p rest ih =>
    rw [chooseChunkLoop, List.find?]
    by_cases hp : minScore ≤ p.2
    · simp [hp]
    · simp [hp, ih]

/-- C5: pipeline façade chunk selection.  Empty retrieval yields the
fixed empty answer and diagnostic report; otherwise sentence selection
and extraction run on the first pair whose score reaches min_score,
falling back to the first pair overall; the operation is total. -/
theorem generate_extractive_answer_spec (encode : List Char → List ℚ)
    (fmt : ℚ → List Char) (query : List Char)
    (retrieved : List (Chunk × ℚ)) (minScore : ℚ) :
    (retrieved = [] → generate_extractive_answer encode fmt query retrieved minScore
        = ([], "Retrieved Context: (none)".toList))
    ∧ (retrieved ≠ [] → ∃ chosen,
        ((retrieved.find? fun p => decide (minScore ≤ p.2)) = some chosen
         ∨ ((retrieved.find? fun p => decide (minScore ≤ p.2)) = none
            ∧ retrieved.head? = some chosen))
        ∧ (generate_extractive_answer encode fmt query retrieved minScore).1
            = extract_short_answer (best_sentence encode query chosen.1.text)
                (detect_question_type query) query) := by
  constructor
  · intro h
    subst h
    rfl
  · intro hne
    cases hf : chooseChunkLoop minScore retrieved with
    | some ch =>
      refine ⟨ch, Or.inl (by rw [← chooseChunkLoop_eq_find, hf]), ?_⟩
      rw [generate_extractive_answer, if_neg (by simp [hne])]
      simp only [hf, Option.getD_some]
    | none =>
      match retrieved, hne with
      | p :: rest, _ =>
        refine ⟨p, Or.inr ⟨by rw [← chooseChunkLoop_eq_find, hf], rfl⟩, ?_⟩
        rw [generate_extractive_answer, if_neg (by simp)]
        simp only [hf, Option.getD_none, List.headD_cons]

/-- Witness for C5: the façade theorem applied at the empty retrieval
list, yielding the fixed empty answer and diagnostic report. -/
theorem generate_extractive_answer_spec_witness :
    generate_extractive_answer (fun _ => [(1 : ℚ)]) (fun _ => ['0']) ['q'] [] 0
      = ([], "Retrieved Context: (none)".toList) :=
  (generate_extractive_answer_spec (fun _ => [(1 : ℚ)]) (fun _ => ['0']) ['q'] [] 0).1 rfl

end NaiveRag
